import Mathlib

/-!
Verification of the tag processing and relationship engine of the
starlight-tags plugin.

The development shallowly embeds the core functions of the repository:

* the `TagsProcessor` read accessors and derived-graph algorithms from
  `packages/starlight-tags/src/libs/url.ts` (the processor variant that sorts
  by priority, validates slugs and scores related tags) — `getAllTagsSorted`,
  `buildPrerequisiteChain`, `findRelatedTags`, `findNextSteps`,
  `getLearningPath`;
* the standalone `getLearningPath` of `packages/starlight-tags/src/utils.ts`
  (behaviourally identical to the method on the processor);
* the string utilities `levenshteinDistance` and `findSimilarStrings`;
* the localization helpers `getTagLabel`, `getTagDescription` and
  `resolveLocalizedString`;
* the load/validation control flow of `TagsProcessor.loadTagsConfig` in both
  variants present in the repository (the graceful one of `part_010` and the
  throwing one of `url.ts`), together with the `processTagsData` pipeline;
* the single-flight memoization of `initializeTagsStore`
  (`part_012`/`part_011`), as a small-step transition system over the
  cooperative (run-to-completion) event-loop semantics.

JavaScript `Map`s are modelled as insertion-ordered association lists,
`Array.prototype.sort` (a stable comparator sort) as insertion sort, machine
numbers as `Int`/`Nat`/`ℚ`, thrown errors as `Except`, and `undefined` as
`Option`.  `String.prototype.localeCompare` is modelled as the lexicographic
order on strings.
-/

namespace StarlightTags

/-- PageReference as built by the processor: a documentation page record
attached to a tag (id, slug, title, optional description, tag list). -/
structure PageRef where
  id : String
  slug : String := ""
  title : String := ""
  descr : Option String := none
  tags : List String := []
deriving DecidableEq, Repr

/-- ProcessedTag: the runtime tag record of `schemas/tags.ts` restricted to the
fields touched by the embedded functions.  `priority` is optional with the
`?? 0` default applied at use sites, exactly as in the comparator. -/
structure ProcessedTag where
  id : String := ""
  label : String := ""
  slug : String := ""
  url : String := ""
  descr : Option String := none
  color : Option String := none
  hidden : Option Bool := none
  icon : Option String := none
  permalink : Option String := none
  difficulty : Option String := none
  contentType : Option String := none
  subject : Option String := none
  learningObjectives : List String := []
  estimatedTime : Option String := none
  skillLevel : Option String := none
  priority : Option Int := none
  count : Nat := 0
  pages : List PageRef := []
  prerequisites : List String := []
  prerequisiteChain : List String := []
  relatedTags : List String := []
  nextSteps : List String := []
deriving DecidableEq, Repr

/-- The processed tag table `Map<string, ProcessedTag>`: a JavaScript `Map`
is an insertion-ordered key-value sequence, modelled as an association list. -/
abbrev TagMap : Type := List (String × ProcessedTag)

/-- Model of `map.get(k)`: the value of the first (unique) binding of `k`. -/
def mapGet (m : TagMap) (k : String) : Option ProcessedTag :=
  List.lookup k (m : List (String × ProcessedTag))

/-- Model of `map.has(k)`. -/
def mapHas (m : TagMap) (k : String) : Bool :=
  (mapGet m k).isSome

/-- Model of `map.keys()`. -/
def mapKeys (m : TagMap) : List String :=
  (m : List (String × ProcessedTag)).map (fun kv => kv.1)

/-- Model of `Array.from(map.values())`. -/
def tagsValues (m : TagMap) : List ProcessedTag :=
  (m : List (String × ProcessedTag)).map (fun kv => kv.2)

theorem mapGet_mem_keys {m : TagMap} {k : String} {t : ProcessedTag}
    (h : mapGet m k = some t) : k ∈ mapKeys m := by
  induction (m : List (String × ProcessedTag)) with
  | nil => simp [mapGet, List.lookup] at h
  | cons kv rest ih =>
    rw [mapGet, List.lookup] at h
    by_cases hk : k = kv.1
    · simp [mapKeys, hk]
    · have hne : (k == kv.1) = false := beq_false_of_ne hk
      rw [hne] at h
      have := ih h
      simp [mapKeys] at this ⊢
      exact Or.inr this

/-! ### The sort comparator of `getAllTagsSorted` (url.ts lines 346-358)

The JavaScript comparator returns `(b.priority ?? 0) - (a.priority ?? 0)`
when the priorities differ, `b.count - a.count` when the counts differ, and
`a.label.localeCompare(b.label)` otherwise.  A negative comparator value
places `a` first.  We express the comparator as an `Ordering` (`.lt` meaning
"a sorts before b") and model the stable `Array.prototype.sort` by insertion
sort. -/

/-- Three-way comparison on a linear order (sign of a numeric difference, or
of `localeCompare` under the lexicographic model). -/
def cmpLO {α : Type} [LinearOrder α] (x y : α) : Ordering :=
  if x < y then .lt else if x = y then .eq else .gt

theorem cmpLO_eq_lt {α : Type} [LinearOrder α] {x y : α} :
    cmpLO x y = .lt ↔ x < y := by
  unfold cmpLO
  split_ifs with h1 h2 <;> simp_all

theorem cmpLO_eq_eq {α : Type} [LinearOrder α] {x y : α} :
    cmpLO x y = .eq ↔ x = y := by
  unfold cmpLO
  split_ifs with h1 h2 <;> simp_all
  exact ne_of_lt h1

theorem cmpLO_ne_gt {α : Type} [LinearOrder α] {x y : α} :
    cmpLO x y ≠ .gt ↔ x ≤ y := by
  unfold cmpLO
  split_ifs with h1 h2
  · simpa using le_of_lt h1
  · simpa using le_of_eq h2
  · simpa using lt_of_le_of_ne (not_lt.mp h1) (Ne.symm h2)

/-- The priority actually compared: `t.priority ?? 0`. -/
def priorityOf (t : ProcessedTag) : Int :=
  t.priority.getD 0

/-- The comparator of `getAllTagsSorted`: priority difference, then count
difference, then `localeCompare` of the labels. -/
def tagCmp (a b : ProcessedTag) : Ordering :=
  (cmpLO (priorityOf b) (priorityOf a)).then
    ((cmpLO b.count a.count).then (cmpLO a.label b.label))

/-- The "a does not sort strictly after b" relation induced by the comparator;
insertion sort along this relation models the stable `Array.prototype.sort`. -/
def tagLe (a b : ProcessedTag) : Prop :=
  tagCmp a b ≠ .gt

instance : DecidableRel tagLe := fun a b =>
  inferInstanceAs (Decidable (tagCmp a b ≠ .gt))

/-- The ordering stated by the specification: priority descending, then count
descending, then label ascending. -/
def claimSortOrder (a b : ProcessedTag) : Prop :=
  priorityOf a > priorityOf b ∨
    (priorityOf a = priorityOf b ∧
      (a.count > b.count ∨ (a.count = b.count ∧ a.label ≤ b.label)))

theorem then_ne_gt {o₁ o₂ : Ordering} :
    o₁.then o₂ ≠ .gt ↔ o₁ = .lt ∨ (o₁ = .eq ∧ o₂ ≠ .gt) := by
  cases o₁ <;> simp [Ordering.then]

theorem tagLe_iff_claimSortOrder {a b : ProcessedTag} :
    tagLe a b ↔ claimSortOrder a b := by
  unfold tagLe tagCmp claimSortOrder
  rw [then_ne_gt, then_ne_gt, cmpLO_eq_lt, cmpLO_eq_eq, cmpLO_eq_lt,
    cmpLO_eq_eq, cmpLO_ne_gt]
  constructor
  · rintro (h | ⟨he, h | ⟨he2, h⟩⟩)
    · exact Or.inl h
    · exact Or.inr ⟨he.symm, Or.inl h⟩
    · exact Or.inr ⟨he.symm, Or.inr ⟨he2.symm, h⟩⟩
  · rintro (h | ⟨he, h | ⟨he2, h⟩⟩)
    · exact Or.inl h
    · exact Or.inr ⟨he.symm, Or.inl h⟩
    · exact Or.inr ⟨he.symm, Or.inr ⟨he2.symm, h⟩⟩

theorem claimSortOrder_total (a b : ProcessedTag) :
    claimSortOrder a b ∨ claimSortOrder b a := by
  unfold claimSortOrder
  rcases lt_trichotomy (priorityOf a) (priorityOf b) with hp | hp | hp
  · exact Or.inr (Or.inl hp)
  · rcases lt_trichotomy a.count b.count with hc | hc | hc
    · exact Or.inr (Or.inr ⟨hp.symm, Or.inl hc⟩)
    · rcases le_total a.label b.label with hl | hl
      · exact Or.inl (Or.inr ⟨hp, Or.inr ⟨hc, hl⟩⟩)
      · exact Or.inr (Or.inr ⟨hp.symm, Or.inr ⟨hc.symm, hl⟩⟩)
    · exact Or.inl (Or.inr ⟨hp, Or.inl hc⟩)
  · exact Or.inl (Or.inl hp)

theorem claimSortOrder_trans {a b c : ProcessedTag}
    (h₁ : claimSortOrder a b) (h₂ : claimSortOrder b c) :
    claimSortOrder a c := by
  unfold claimSortOrder at *
  rcases h₁ with h₁ | ⟨hp₁, h₁⟩
  · rcases h₂ with h₂ | ⟨hp₂, _⟩
    · exact Or.inl (lt_trans h₂ h₁)
    · exact Or.inl (hp₂ ▸ h₁)
  · rcases h₂ with h₂ | ⟨hp₂, h₂⟩
    · exact Or.inl (hp₁ ▸ h₂)
    · refine Or.inr ⟨hp₁.trans hp₂, ?_⟩
      rcases h₁ with h₁ | ⟨hc₁, h₁⟩
      · rcases h₂ with h₂ | ⟨hc₂, _⟩
        · exact Or.inl (lt_trans h₂ h₁)
        · exact Or.inl (hc₂ ▸ h₁)
      · rcases h₂ with h₂ | ⟨hc₂, h₂⟩
        · exact Or.inl (hc₁ ▸ h₂)
        · exact Or.inr ⟨hc₁.trans hc₂, le_trans h₁ h₂⟩

/-- Model of `getAllTagsSorted()` (url.ts lines 346-358):
`Array.from(this.getTags().values()).sort(comparator)`. -/
def getAllTagsSorted (m : TagMap) : List ProcessedTag :=
  (tagsValues m).insertionSort tagLe

/-- C1: for every tag table, `getAllTagsSorted()` returns a permutation of
`getTags().values()` that is pairwise ordered by priority descending, then
count descending, then label ascending (locale-aware label comparison
modelled as the lexicographic order on strings). -/
theorem c1_getAllTagsSorted_sorted_perm (m : TagMap) :
    (getAllTagsSorted m).Perm (tagsValues m) ∧
      (getAllTagsSorted m).Pairwise claimSortOrder := by
  haveI : IsTotal ProcessedTag tagLe := ⟨fun a b => by
    rw [tagLe_iff_claimSortOrder, tagLe_iff_claimSortOrder]
    exact claimSortOrder_total a b⟩
  haveI : IsTrans ProcessedTag tagLe := ⟨fun a b c h₁ h₂ => by
    rw [tagLe_iff_claimSortOrder] at *
    exact claimSortOrder_trans h₁ h₂⟩
  refine ⟨List.perm_insertionSort tagLe (tagsValues m), ?_⟩
  exact (List.sorted_insertionSort tagLe (tagsValues m)).imp
    (fun h => tagLe_iff_claimSortOrder.mp h)

/-! ### buildPrerequisiteChain (url.ts lines 380-414)

The method recurses over a tag's `prerequisites`.  A revisit of a tag already
in the per-branch `visited` set logs a cycle warning and returns the empty
chain for that branch; each branch recursion uses a fresh copy of `visited`
extended with the current tag, and the final chain is deduplicated with
`Array.from(new Set(chain))` (first occurrences kept).

The embedding carries the warnings as an explicit list of the tag ids at
which a cycle was detected (the logger is a write-only collaborator), and
uses fuel so the definition computes; `chainGo_isSome` shows the fuel
`(mapKeys m).length + 1` can never run out, which is the termination of the
original recursion. -/

/-- Model of `Array.from(new Set(chain))`: deduplication keeping the first
occurrence of each element, in order. -/
def jsDedup (l : List String) : List String :=
  l.foldl (fun acc x => if x ∈ acc then acc else acc ++ [x]) []

/-- The `for (const prereqId of tag.prerequisites)` loop body: prerequisites
present in the processed map are pushed, then their recursively computed
sub-chains; the recursive call is the function argument. -/
def chainLoop (m : TagMap) (recurse : String → Option (List String × List String)) :
    List String → Option (List String × List String)
  | [] => some ([], [])
  | p :: ps =>
    if mapHas m p then
      match recurse p with
      | none => none
      | some (sub, w₁) =>
        match chainLoop m recurse ps with
        | none => none
        | some (rest, w₂) => some (p :: (sub ++ rest), w₁ ++ w₂)
    else chainLoop m recurse ps

/-- Fueled embedding of `buildPrerequisiteChain(tagId, visited, path)`.
Returns `(chain, cycle warnings)`, or `none` on fuel exhaustion (shown
impossible below for the wrapper's fuel). -/
def chainGo (m : TagMap) : Nat → String → List String → List String →
    Option (List String × List String)
  | 0, _, _, _ => none
  | fuel + 1, tagId, visited, path =>
    if tagId ∈ visited then
      some ([], [tagId])
    else
      match mapGet m tagId with
      | none => some ([], [])
      | some tag =>
        if tag.prerequisites = [] then
          some ([], [])
        else
          match chainLoop m
              (fun p => chainGo m fuel p (visited ++ [tagId]) (path ++ [tagId]))
              tag.prerequisites with
          | none => none
          | some (chain, w) => some (jsDedup chain, w)

/-- Fuel that can never be exhausted: one more than the number of defined
tags. -/
def chainFuel (m : TagMap) : Nat :=
  (mapKeys m).length + 1

/-- Model of `buildPrerequisiteChain(tagId)` with the default arguments
(`visited = new Set()`, `path = []`). -/
def buildPrerequisiteChain (m : TagMap) (tagId : String) :
    Option (List String × List String) :=
  chainGo m (chainFuel m) tagId [] []

/-- Tags not yet visited. -/
def freshCount (m : TagMap) (visited : List String) : Nat :=
  ((mapKeys m).filter (fun k => k ∉ visited)).length

theorem filter_sublist_of_imp {l : List String} {p q : String → Bool}
    (h : ∀ a, p a = true → q a = true) :
    (l.filter p).Sublist (l.filter q) := by
  induction l with
  | nil => simp
  | cons a t ih =>
    by_cases hp : p a = true
    · rw [List.filter_cons_of_pos hp, List.filter_cons_of_pos (h a hp)]
      exact ih.cons₂ a
    · rw [List.filter_cons_of_neg (by simpa using hp)]
      by_cases hq : q a = true
      · rw [List.filter_cons_of_pos hq]
        exact ih.cons a
      · rw [List.filter_cons_of_neg (by simpa using hq)]
        exact ih

theorem freshCount_lt {m : TagMap} {visited : List String} {tagId : String}
    (hk : tagId ∈ mapKeys m) (hv : tagId ∉ visited) :
    freshCount m (visited ++ [tagId]) < freshCount m visited := by
  unfold freshCount
  have himp : ∀ a : String,
      (decide (a ∉ visited ++ [tagId]) = true) → (decide (a ∉ visited) = true) := by
    intro a ha
    simp only [decide_eq_true_eq, List.mem_append, List.mem_singleton] at ha ⊢
    exact fun h => ha (Or.inl h)
  have hsub := filter_sublist_of_imp (l := mapKeys m) himp
  refine lt_of_le_of_ne hsub.length_le ?_
  intro heq
  have : (mapKeys m).filter (fun k => decide (k ∉ visited ++ [tagId])) =
      (mapKeys m).filter (fun k => decide (k ∉ visited)) :=
    hsub.eq_of_length heq
  have hmem : tagId ∈ (mapKeys m).filter (fun k => decide (k ∉ visited)) := by
    simp [List.mem_filter, hk, hv]
  rw [← this] at hmem
  simp [List.mem_filter] at hmem

theorem chainLoop_isSome (m : TagMap)
    (recurse : String → Option (List String × List String))
    (h : ∀ p, (recurse p).isSome) :
    ∀ ps, (chainLoop m recurse ps).isSome := by
  intro ps
  induction ps with
  | nil => simp [chainLoop]
  | cons p ps ih =>
    rw [chainLoop]
    by_cases hp : mapHas m p
    · rw [if_pos hp]
      obtain ⟨⟨sub, w₁⟩, hr⟩ := Option.isSome_iff_exists.mp (h p)
      obtain ⟨⟨rest, w₂⟩, hl⟩ := Option.isSome_iff_exists.mp ih
      rw [hr, hl]
      rfl
    · rw [if_neg hp]
      exact ih

/-- The recursion of `buildPrerequisiteChain` is well founded: with fuel
exceeding the number of unvisited defined tags, no fuel is ever exhausted. -/
theorem chainGo_isSome (m : TagMap) :
    ∀ fuel visited path tagId, freshCount m visited < fuel →
      (chainGo m fuel tagId visited path).isSome := by
  intro fuel
  induction fuel with
  | zero => intro _ _ _ h; omega
  | succ fuel ih =>
    intro visited path tagId _
    rw [chainGo]
    by_cases hvis : tagId ∈ visited
    · rw [if_pos hvis]; rfl
    · rw [if_neg hvis]
      cases hget : mapGet m tagId with
      | none => rfl
      | some tag =>
        dsimp only
        by_cases hpre : tag.prerequisites = []
        · rw [if_pos hpre]; rfl
        · rw [if_neg hpre]
          have hfresh : freshCount m (visited ++ [tagId]) < fuel := by
            have h1 := freshCount_lt (mapGet_mem_keys hget) hvis
            omega
          have hloop := chainLoop_isSome m
            (fun p => chainGo m fuel p (visited ++ [tagId]) (path ++ [tagId]))
            (fun p => ih (visited ++ [tagId]) (path ++ [tagId]) p hfresh)
            tag.prerequisites
          obtain ⟨⟨chain, w⟩, hl⟩ := Option.isSome_iff_exists.mp hloop
          rw [hl]
          rfl

/-- The chain computation is total: the wrapper fuel never runs out. -/
theorem buildPrerequisiteChain_total (m : TagMap) (tagId : String) :
    (buildPrerequisiteChain m tagId).isSome :=
  chainGo_isSome m (chainFuel m) [] [] tagId
    (by
      have : freshCount m [] ≤ (mapKeys m).length := by
        unfold freshCount
        exact (List.length_filter_le _ _)
      unfold chainFuel
      omega)

/-! ### Concrete configurations for the cycle and diamond claims -/

/-- Cyclic configuration: tag `a` lists `b` as prerequisite, `b` lists `a`. -/
def cyclicMap : TagMap :=
  [("a", { id := "a", label := "A", prerequisites := ["b"] }),
   ("b", { id := "b", label := "B", prerequisites := ["a"] })]

/-- Diamond configuration: `a` requires `b` and `c`, each of which requires
`d`. -/
def diamondMap : TagMap :=
  [("a", { id := "a", label := "A", prerequisites := ["b", "c"] }),
   ("b", { id := "b", label := "B", prerequisites := ["d"] }),
   ("c", { id := "c", label := "C", prerequisites := ["d"] }),
   ("d", { id := "d", label := "D" })]

/-- C4 counterexample: on the cyclic configuration the computed chain for
`a` is `["b", "a"]`, which contains the cyclic reference `a` itself — the
recursion halts the cyclic branch (one warning, at the revisit of `a`), but
`a` was already pushed as the direct prerequisite of `b`, so the claim that
the chain excludes `a` is false. -/
theorem c4_chain_contains_a :
    buildPrerequisiteChain cyclicMap "a" = some (["b", "a"], ["a"]) ∧
      "a" ∈ ["b", "a"] := by
  constructor
  · rfl
  · simp

/-- C4 (amended): on the cyclic configuration `a ↔ b` the computation of
`prerequisiteChain('a')` terminates — the fueled recursion returns a value,
and in general the fuel can never be exhausted — and the recursive expansion
of the cyclic branch is cut with exactly one cycle warning; the resulting
chain is `["b", "a"]`, which still contains `a` itself as the direct
prerequisite of `b`. -/
theorem c4_cycle_terminates :
    (∀ (m : TagMap) (tagId : String), (buildPrerequisiteChain m tagId).isSome) ∧
      buildPrerequisiteChain cyclicMap "a" = some (["b", "a"], ["a"]) :=
  ⟨buildPrerequisiteChain_total, rfl⟩

/-- C5: on the diamond configuration `a → {b, c}`, `b → d`, `c → d`, the chain
of `a` contains `d` exactly once (the shared dependency is deduplicated), and
no cycle warning is logged at all — in particular none for `d`. -/
theorem c5_diamond_dedup :
    buildPrerequisiteChain diamondMap "a" = some (["b", "d", "c"], []) ∧
      (["b", "d", "c"].count "d" = 1 ∧ "d" ∉ ([] : List String)) := by
  refine ⟨rfl, ?_, ?_⟩
  · rfl
  · simp

/-! ### findRelatedTags (url.ts lines 416-447)

For every other tag the loop computes a score from shared pages and mutual
prerequisite references, keeps positive scores, sorts by score descending
(stable) and truncates to `MAX_RELATED_TAGS = 5`. -/

/-- The per-candidate score of the loop body: `sharedPages * 2`, plus 3 when
the current tag lists the other as a prerequisite, plus 3 when the other
lists the current tag. -/
def relationScore (tagId : String) (currentTag : ProcessedTag)
    (otherId : String) (otherTag : ProcessedTag) : Nat :=
  (otherTag.pages.filter
      (fun p => p.id ∈ currentTag.pages.map (fun q => q.id))).length * 2 +
    (if otherId ∈ currentTag.prerequisites then 3 else 0) +
    (if tagId ∈ otherTag.prerequisites then 3 else 0)

/-- Model of `findRelatedTags(tagId)`: iterate the processed map in insertion
order, skip the tag itself, push `(otherId, score)` when the score is
positive, then `sort((a, b) => b.score - a.score).slice(0, 5).map(r => r.id)`. -/
def findRelatedTags (m : TagMap) (tagId : String) : List String :=
  match mapGet m tagId with
  | none => []
  | some currentTag =>
    let related : List (String × Nat) :=
      m.foldr
        (fun kv acc =>
          if kv.1 = tagId then acc
          else
            if relationScore tagId currentTag kv.1 kv.2 > 0 then
              (kv.1, relationScore tagId currentTag kv.1 kv.2) :: acc
            else acc)
        []
    ((related.insertionSort (fun x y => y.2 ≤ x.2)).take 5).map (fun r => r.1)

/-- The score exactly as the specification words it: 2 times the number of
pages shared with the current tag, plus 3 for each direction of prerequisite
listing. -/
def specScore (tagId : String) (currentTag : ProcessedTag)
    (otherId : String) (otherTag : ProcessedTag) : Nat :=
  2 * otherTag.pages.countP (fun p => currentTag.pages.any (fun q => q.id == p.id)) +
    (if otherId ∈ currentTag.prerequisites then 3 else 0) +
    (if tagId ∈ otherTag.prerequisites then 3 else 0)

/-- The related-tags computation as the specification describes it: score
every other tag, keep the strictly positive scores, sort by score descending,
truncate to the top 5. -/
def relatedTagsSpec (m : TagMap) (tagId : String) : List String :=
  match mapGet m tagId with
  | none => []
  | some currentTag =>
    let scored := (m.filter (fun kv => kv.1 ≠ tagId)).map
      (fun kv => (kv.1, specScore tagId currentTag kv.1 kv.2))
    let positive := scored.filter (fun r => 0 < r.2)
    ((positive.insertionSort (fun x y => y.2 ≤ x.2)).take 5).map (fun r => r.1)

theorem specScore_eq_relationScore (tagId : String) (currentTag : ProcessedTag)
    (otherId : String) (otherTag : ProcessedTag) :
    specScore tagId currentTag otherId otherTag =
      relationScore tagId currentTag otherId otherTag := by
  unfold specScore relationScore
  have hcount : otherTag.pages.countP
      (fun p => currentTag.pages.any (fun q => q.id == p.id)) =
      (otherTag.pages.filter
        (fun p => p.id ∈ currentTag.pages.map (fun q => q.id))).length := by
    rw [← List.countP_eq_length_filter]
    apply List.countP_congr
    intro p _
    constructor
    · intro hany
      obtain ⟨q, hq, hbe⟩ := List.any_eq_true.mp hany
      exact decide_eq_true (List.mem_map.mpr ⟨q, hq, by simpa using hbe⟩)
    · intro hdec
      obtain ⟨q, hq, hid⟩ := List.mem_map.mp (of_decide_eq_true hdec)
      exact List.any_eq_true.mpr ⟨q, hq, by simp [hid]⟩
  rw [hcount]
  ring_nf

theorem relatedFold_eq (tagId : String) (currentTag : ProcessedTag) :
    ∀ m : TagMap,
      (m.foldr
        (fun kv acc =>
          if kv.1 = tagId then acc
          else
            if relationScore tagId currentTag kv.1 kv.2 > 0 then
              (kv.1, relationScore tagId currentTag kv.1 kv.2) :: acc
            else acc)
        []) =
      ((m.filter (fun kv => kv.1 ≠ tagId)).map
        (fun kv => (kv.1, specScore tagId currentTag kv.1 kv.2))).filter
        (fun r => 0 < r.2) := by
  intro m
  induction m with
  | nil => rfl
  | cons kv rest ih =>
    by_cases hself : kv.1 = tagId
    · simp only [List.foldr_cons, if_pos hself, ih]
      rw [List.filter_cons_of_neg (by simpa using hself)]
    · rw [List.foldr_cons]
      rw [List.filter_cons_of_pos (by simpa using hself)]
      rw [List.map_cons]
      by_cases hscore : relationScore tagId currentTag kv.1 kv.2 > 0
      · rw [if_neg hself, if_pos hscore, ih]
        rw [List.filter_cons_of_pos
          (by simpa [specScore_eq_relationScore] using hscore)]
        rw [specScore_eq_relationScore]
      · rw [if_neg hself, if_neg hscore, ih]
        rw [List.filter_cons_of_neg
          (by simpa [specScore_eq_relationScore] using hscore)]

/-- The url.ts `findRelatedTags` computes exactly the claimed description —
score every other tag by shared pages and prerequisite links, keep positive
scores, sort descending, truncate to 5 — and never returns more than 5
related tags.  The part_010 variant the claim also cites is treated with the
legacy processor below. -/
theorem findRelatedTags_eq_spec (m : TagMap) (tagId : String) :
    findRelatedTags m tagId = relatedTagsSpec m tagId ∧
      (findRelatedTags m tagId).length ≤ 5 := by
  have heq : findRelatedTags m tagId = relatedTagsSpec m tagId := by
    unfold findRelatedTags relatedTagsSpec
    cases mapGet m tagId with
    | none => rfl
    | some currentTag =>
      dsimp only
      rw [relatedFold_eq]
  refine ⟨heq, ?_⟩
  unfold findRelatedTags
  cases mapGet m tagId with
  | none => simp
  | some currentTag =>
    dsimp only
    rw [List.length_map]
    exact le_trans (List.length_take_le 5 _) (le_refl 5)

/-! ### String utilities: levenshteinDistance and findSimilarStrings
(part_010 lines 421-486)

`levenshteinDistance` fills the full dynamic-programming matrix row by row;
`findSimilarStrings` lowercases both strings, skips candidates equal to the
exact query, keeps candidates within `max(2, floor(length * ratio))` edits
and sorts by ascending distance.  The floating-point ratio is modelled as a
rational number. -/

/-- One pass of the inner DP loop: given the character `bc` of `b`, the
remaining characters of `a`, the previous row starting at the diagonal cell,
and the value to the left in the current row, produce the rest of the
current row (`matrix[i][j] = b[i-1] == a[j-1] ? diag : 1 + min(diag, left,
up)`). -/
def levRowAux (bc : Char) : List Char → List Nat → Nat → List Nat
  | [], _, _ => []
  | _ :: _, [], _ => []
  | ac :: as, diag :: prevRest, left =>
    let up := prevRest.headD 0
    let cell := if bc = ac then diag else min (min diag left) up + 1
    cell :: levRowAux bc as prevRest cell

/-- The DP matrix row by row: row 0 is `[0 .. |a|]`, and each character of
`b` produces the next row, whose first cell is the row index. -/
def levRows (aChars bChars : List Char) : List Nat :=
  bChars.foldl
    (fun prev bc => (prev.headD 0 + 1) :: levRowAux bc aChars prev (prev.headD 0 + 1))
    (List.range (aChars.length + 1))

/-- Model of `levenshteinDistance(a, b)`: the early returns for empty
strings, then the bottom-right cell of the matrix. -/
def levenshteinDistance (a b : String) : Nat :=
  if a.length = 0 then b.length
  else if b.length = 0 then a.length
  else (levRows a.data b.data).getLastD 0

/-- Model of `String.prototype.toLowerCase()` (character-wise lowercasing). -/
def jsToLower (s : String) : String :=
  ⟨s.data.map Char.toLower⟩

/-- The distance cutoff `Math.max(2, Math.floor(name.length *
maxDistanceRatio))`. -/
def maxDistanceFor (name : String) (ratio : ℚ) : Nat :=
  max 2 (Int.toNat ⌊(name.length : ℚ) * ratio⌋)

/-- Model of `findSimilarStrings(name, candidates, maxDistanceRatio)`
(default ratio 0.4): candidates equal to the exact query are skipped, the
case-insensitive distance is computed, matches within the cutoff are kept
and sorted by ascending distance (stable sort). -/
def findSimilarStrings (name : String) (candidates : List String)
    (ratio : ℚ := 2 / 5) : List (String × Nat) :=
  let similar := candidates.foldr
    (fun other acc =>
      if other = name then acc
      else
        if levenshteinDistance (jsToLower name) (jsToLower other) ≤
            maxDistanceFor name ratio then
          (other, levenshteinDistance (jsToLower name) (jsToLower other)) :: acc
        else acc)
    []
  similar.insertionSort (fun x y => x.2 ≤ y.2)

/-- The similarity search as the specification words it: exactly the
candidates other than the exact query whose case-insensitive distance is at
most `max(2, floor(length * ratio))`, with their distances, sorted by
ascending distance. -/
def similarSpec (name : String) (candidates : List String) (ratio : ℚ) :
    List (String × Nat) :=
  ((((candidates.filter (fun c => c ≠ name)).map
      (fun c => (c, levenshteinDistance (jsToLower name) (jsToLower c)))).filter
    (fun r => r.2 ≤ maxDistanceFor name ratio))).insertionSort
    (fun x y => x.2 ≤ y.2)

theorem similarFold_eq (name : String) (ratio : ℚ) :
    ∀ candidates : List String,
      (candidates.foldr
        (fun other acc =>
          if other = name then acc
          else
            if levenshteinDistance (jsToLower name) (jsToLower other) ≤
                maxDistanceFor name ratio then
              (other, levenshteinDistance (jsToLower name) (jsToLower other)) :: acc
            else acc)
        []) =
      (((candidates.filter (fun c => c ≠ name)).map
        (fun c => (c, levenshteinDistance (jsToLower name) (jsToLower c)))).filter
        (fun r => r.2 ≤ maxDistanceFor name ratio)) := by
  intro candidates
  induction candidates with
  | nil => rfl
  | cons c rest ih =>
    by_cases hself : c = name
    · rw [List.foldr_cons, if_pos hself, ih,
        List.filter_cons_of_neg (by simpa using hself)]
    · rw [List.foldr_cons, if_neg hself,
        List.filter_cons_of_pos (by simpa using hself), List.map_cons]
      by_cases hd : levenshteinDistance (jsToLower name) (jsToLower c) ≤
          maxDistanceFor name ratio
      · rw [if_pos hd, ih, List.filter_cons_of_pos (by simpa using hd)]
      · rw [if_neg hd, ih, List.filter_cons_of_neg (by simpa using hd)]

theorem c9_bound_featurs : maxDistanceFor "Featurs" (2 / 5) = 2 := by
  have hlen : ("Featurs" : String).length = 7 := rfl
  unfold maxDistanceFor
  rw [hlen]
  norm_num

/-- C9: `findSimilarStrings` returns exactly the candidates other than the
exact query whose case-insensitive edit distance is within `max(2,
floor(length * ratio))`, sorted by ascending distance; and on the concrete
example the query `Featurs` against `[Features, Platforms]` yields exactly
`Features` with distance 1. -/
theorem c9_findSimilarStrings_spec :
    (∀ (name : String) (candidates : List String) (ratio : ℚ),
      findSimilarStrings name candidates ratio = similarSpec name candidates ratio ∧
        (findSimilarStrings name candidates ratio).Pairwise
          (fun x y => x.2 ≤ y.2)) ∧
      findSimilarStrings "Featurs" ["Features", "Platforms"] (2 / 5) =
        [("Features", 1)] := by
  constructor
  · intro name candidates ratio
    constructor
    · unfold findSimilarStrings similarSpec
      rw [similarFold_eq]
    · haveI : IsTotal (String × Nat) (fun x y => x.2 ≤ y.2) :=
        ⟨fun a b => Nat.le_total a.2 b.2⟩
      haveI : IsTrans (String × Nat) (fun x y => x.2 ≤ y.2) :=
        ⟨fun a b c h₁ h₂ => Nat.le_trans h₁ h₂⟩
      unfold findSimilarStrings
      exact List.sorted_insertionSort _ _
  · have h := c9_bound_featurs
    unfold findSimilarStrings
    rw [h]
    decide

/-! ### Localization resolvers

`getTagLabel` / `getTagDescription` (part_012 lines 778-824) resolve a
string-or-locale-map value with the chain: exact language match (JavaScript
truthiness, so an empty string does not count) → configured default-language
value (`?? ''`) → throw when the resolution is empty.  The separate generic
utility `resolveLocalizedString` (the i18n module) implements the longer
chain exact → default → hardcoded `'en'` fallback → first value in insertion
order → `undefined`.  The requested language (`getLangFromLocale(locale)`)
and the configured default language are taken as inputs. -/

/-- A label or description value: a plain string or a locale-keyed record
(insertion-ordered, as a JavaScript object literal). -/
inductive LocValue where
  | str (s : String)
  | record (entries : List (String × String))
deriving DecidableEq, Repr

/-- Model of the truthiness test `record[k]`: the binding must exist and be
a non-empty string. -/
def truthyLookup (entries : List (String × String)) (k : String) : Option String :=
  match List.lookup k entries with
  | some v => if v = "" then none else some v
  | none => none

/-- Truthiness of an optional string (`undefined` and `''` are falsy). -/
def optTruthy (o : Option String) : Option String :=
  match o with
  | some s => if s = "" then none else some s
  | none => none

def labelErrorMsg : String :=
  "Each tag label must have a key for the default language."

def descriptionErrorMsg : String :=
  "Each tag description must have a key for the default language."

/-- Model of `getTagLabel(locale, labelObject)`: a plain string is returned
as-is; for a record, the exact (truthy) language match wins, otherwise the
default-language value (`?? ''`); an empty result throws. -/
def getTagLabel (lang : String) (defaultLang : Option String)
    (labelObject : LocValue) : Except String String :=
  match labelObject with
  | .str s => .ok s
  | .record r =>
    let label :=
      match truthyLookup r lang with
      | some v => v
      | none =>
        match defaultLang with
        | some d => (List.lookup d r).getD ""
        | none => ""
    if label = "" then .error labelErrorMsg else .ok label

/-- Model of `getTagDescription(locale, descriptionObject)`: `undefined`
stays `undefined`; otherwise the resolution follows `getTagLabel` and an
empty result throws. -/
def getTagDescription (lang : String) (defaultLang : Option String)
    (descriptionObject : Option LocValue) : Except String (Option String) :=
  match descriptionObject with
  | none => .ok none
  | some (.str s) => .ok (some s)
  | some (.record r) =>
    let description :=
      match truthyLookup r lang with
      | some v => v
      | none =>
        match defaultLang with
        | some d => (List.lookup d r).getD ""
        | none => ""
    if description = "" then .error descriptionErrorMsg else .ok (some description)

/-- Model of `resolveLocalizedString(value, locale, defaultLocale)` from the
i18n utility module: exact locale match → default locale → `'en'` → first
value of the record in insertion order → `undefined`. -/
def resolveLocalizedString (value : Option LocValue) (locale : Option String)
    (defaultLocale : Option String) : Option String :=
  match value with
  | none => none
  | some (.str s) => some s
  | some (.record r) =>
    match (optTruthy locale).bind (truthyLookup r) with
    | some v => some v
    | none =>
      match (optTruthy defaultLocale).bind (truthyLookup r) with
      | some v => some v
      | none =>
        match truthyLookup r "en" with
        | some v => some v
        | none =>
          match r.map (fun kv => kv.2) with
          | [] => none
          | v :: _ => some v

/-- The resolution chain exactly as the specification words it for the
generic resolver: exact locale match, then default-locale match, then the
hardcoded universal fallback locale `'en'`, then the first value present in
the map in insertion order, then `undefined`. -/
def resolveChainSpec (value : Option LocValue) (locale : Option String)
    (defaultLocale : Option String) : Option String :=
  match value with
  | none => none
  | some (.str s) => some s
  | some (.record r) =>
    (((optTruthy locale).bind (truthyLookup r)).orElse
      (fun _ => (optTruthy defaultLocale).bind (truthyLookup r))).orElse
      (fun _ => (truthyLookup r "en").orElse
        (fun _ => (r.map (fun kv => kv.2)).head?))

/-- The label resolution chain that the code actually implements: exact
(truthy) language match, else the default-language binding, else a thrown
ConfigError — with no universal-fallback step and no first-value step. -/
def labelChainSpec (lang : String) (defaultLang : Option String)
    (r : List (String × String)) : Except String String :=
  match truthyLookup r lang with
  | some v => .ok v
  | none =>
    match defaultLang with
    | some d =>
      match List.lookup d r with
      | some v => if v = "" then .error labelErrorMsg else .ok v
      | none => .error labelErrorMsg
    | none => .error labelErrorMsg

/-- C8 counterexample: for the record `{de: "Hallo"}`, requested language
`fr`, default language `en`, the claimed chain falls through to the first
value in insertion order and resolves `"Hallo"` — as the generic
`resolveLocalizedString` indeed does — but the label resolver the claim
describes throws a ConfigError instead of resolving any value. -/
theorem c8_label_not_claimed_chain :
    getTagLabel "fr" (some "en") (.record [("de", "Hallo")]) =
        .error labelErrorMsg ∧
      resolveLocalizedString (some (.record [("de", "Hallo")]))
        (some "fr") (some "en") = some "Hallo" :=
  ⟨rfl, rfl⟩

/-- C8 (amended): the generic utility `resolveLocalizedString` implements
the five-step chain exact → default → `'en'` → first value → `undefined`,
but the label/description resolvers (`getTagLabel` / `getTagDescription`)
implement only exact (truthy) match → default-language binding and then
throw a ConfigError when nothing non-empty resolves; `undefined` is returned
only for an absent optional field. -/
theorem c8_resolution_order :
    (∀ (value : Option LocValue) (locale defaultLocale : Option String),
      resolveLocalizedString value locale defaultLocale =
        resolveChainSpec value locale defaultLocale) ∧
      (∀ (lang : String) (defaultLang : Option String)
        (r : List (String × String)),
        getTagLabel lang defaultLang (.record r) = labelChainSpec lang defaultLang r) ∧
      (∀ (lang : String) (defaultLang : Option String),
        getTagDescription lang defaultLang none = .ok none) := by
  refine ⟨?_, ?_, ?_⟩
  · intro value locale defaultLocale
    unfold resolveLocalizedString resolveChainSpec
    match value with
    | none => rfl
    | some (.str s) => rfl
    | some (.record r) =>
      cases h₁ : (optTruthy locale).bind (truthyLookup r) with
      | some v => simp [Option.orElse, h₁]
      | none =>
        cases h₂ : (optTruthy defaultLocale).bind (truthyLookup r) with
        | some v => simp [Option.orElse, h₁, h₂]
        | none =>
          cases h₃ : truthyLookup r "en" with
          | some v => simp [Option.orElse, h₁, h₂, h₃]
          | none =>
            cases h₄ : r.map (fun kv => kv.2) with
            | nil => simp [Option.orElse, h₁, h₂, h₃, h₄]
            | cons v rest => simp [Option.orElse, h₁, h₂, h₃, h₄]
  · intro lang defaultLang r
    unfold getTagLabel labelChainSpec
    dsimp only
    cases h₁ : truthyLookup r lang with
    | some v =>
      have hv : v ≠ "" := by
        unfold truthyLookup at h₁
        cases h : List.lookup lang r with
        | none => rw [h] at h₁; simp at h₁
        | some w =>
          rw [h] at h₁
          dsimp only at h₁
          by_cases hw : w = ""
          · rw [if_pos hw] at h₁; simp at h₁
          · rw [if_neg hw] at h₁
            cases h₁
            exact hw
      dsimp only
      rw [if_neg hv]
    | none =>
      dsimp only
      cases defaultLang with
      | none => simp
      | some d =>
        cases h₂ : List.lookup d r with
        | none => simp [h₂]
        | some v =>
          by_cases hv : v = ""
          · simp [h₂, hv]
          · simp [h₂, hv]
  · intro lang defaultLang
    rfl

/-! ### Loading and processing the tag definitions

`loadTagsConfig` reads and schema-validates the tag-definition file.  The
repository contains two variants: the `part_010` processor degrades a
missing file (`ENOENT`) to the empty configuration `{tags: {}}` with a
warning, while the processor embedded in `url.ts` throws a dedicated
file-not-found error; both throw "Invalid tags configuration" when the file
exists but fails validation.  The file system and the yaml/zod validation are
external collaborators, modelled as a `ReadResult` input and a `parse`
function argument.  `processTagsData` is the `part_010` pipeline: build the
page cross-reference, build a `ProcessedTag` per defined tag, compute the
educational relationships, then validate inline tags per policy (the
frontmatter bag on enriched pages is not modelled). -/

/-- The `onInlineTagsNotFound` policy. -/
inductive InlinePolicy where
  | ignore
  | warn
  | error
deriving DecidableEq, Repr

/-- The plugin configuration fields the processor reads (`tagsRoute` models
`tagsPagesPrefix`). -/
structure PluginCfg where
  configPath : String := "tags.yml"
  tagsRoute : String := "tags"
  basePath : String := ""
  onInlineTagsNotFound : InlinePolicy := .warn
deriving DecidableEq, Repr

/-- A raw tag definition as validated by `tagsConfigSchema`. -/
structure TagDef where
  label : String := ""
  descr : Option String := none
  color : Option String := none
  icon : Option String := none
  permalink : Option String := none
  hidden : Option Bool := none
  difficulty : Option String := none
  contentType : Option String := none
  subject : Option String := none
  prerequisites : Option (List String) := none
  learningObjectives : Option (List String) := none
  estimatedTime : Option String := none
  skillLevel : Option String := none
deriving DecidableEq, Repr

/-- The shared defaults of the configuration file. -/
structure TagDefaults where
  color : Option String := none
deriving DecidableEq, Repr

/-- The decoded and validated tags.yml structure. -/
structure TagsConfig where
  tags : List (String × TagDef) := []
  defaults : Option TagDefaults := none
deriving DecidableEq, Repr

/-- A docs collection entry (`entry.id` plus the frontmatter fields read by
the processor). -/
structure DocsEntry where
  id : String
  title : String := ""
  descr : Option String := none
  tags : List String := []
deriving DecidableEq, Repr

/-- The outcome of `fs.readFile`: file missing (`ENOENT`) or its decoded
content. -/
inductive ReadResult (α : Type) where
  | enoent
  | ok (raw : α)

/-- Model of the `part_010` `loadTagsConfig`: `ENOENT` degrades to
`{tags: {}}` with a warning; any other failure (here: schema validation)
throws "Invalid tags configuration". -/
def loadTagsConfig {α : Type} (parse : α → Except String TagsConfig)
    (file : ReadResult α) : Except String TagsConfig :=
  match file with
  | .enoent => .ok { tags := [], defaults := none }
  | .ok raw =>
    match parse raw with
    | .ok cfg => .ok cfg
    | .error msg => .error ("Invalid tags configuration: " ++ msg)

/-- Model of the `url.ts` `loadTagsConfig`: `ENOENT` throws a dedicated
file-not-found error instead of degrading. -/
def loadTagsConfigStrict {α : Type} (parse : α → Except String TagsConfig)
    (file : ReadResult α) : Except String TagsConfig :=
  match file with
  | .enoent => .error "[starlight-tags] Tags configuration file not found"
  | .ok raw =>
    match parse raw with
    | .ok cfg => .ok cfg
    | .error msg => .error ("[starlight-tags] Invalid tags configuration: " ++ msg)

/-- JavaScript `a || b` on optional strings (`undefined` and `''` falsy). -/
def jsOr (a b : Option String) : Option String :=
  match optTruthy a with
  | some v => some v
  | none => b

/-- A character the slug keeps: lowercase letter or digit. -/
def isSlugChar (c : Char) : Bool :=
  (97 ≤ c.toNat && c.toNat ≤ 122) || (48 ≤ c.toNat && c.toNat ≤ 57)

/-- Model of `.replace(/[^a-z0-9]+/g, '-')`: every maximal run of
non-alphanumeric characters becomes one hyphen (the boolean tracks being
inside such a run). -/
def collapseRuns : Bool → List Char → List Char
  | _, [] => []
  | inRun, c :: cs =>
    if isSlugChar c then c :: collapseRuns false cs
    else if inRun then collapseRuns true cs
    else Char.ofNat 45 :: collapseRuns true cs

/-- Model of the `part_010` `generateTagSlug`: the permalink verbatim if
present, else the lowercased id with non-alphanumeric runs hyphenated. -/
def generateTagSlug (tagId : String) (permalink : Option String) : String :=
  match permalink with
  | some p => p
  | none => ⟨collapseRuns false (jsToLower tagId).data⟩

/-- Model of the `part_010` `generateTagUrl`. -/
def generateTagUrl (cfg : PluginCfg) (tagId : String)
    (permalink : Option String) : String :=
  cfg.basePath ++ "/" ++ cfg.tagsRoute ++ "/" ++ generateTagSlug tagId permalink ++ "/"

/-- One step of the tag-usage accumulation: append the page to the bucket of
`tagId`, creating the bucket on first use (insertion order = first
appearance). -/
def addUsage (acc : List (String × List PageRef)) (tagId : String)
    (page : PageRef) : List (String × List PageRef) :=
  if acc.any (fun kv => kv.1 == tagId) then
    acc.map (fun kv => if kv.1 == tagId then (kv.1, kv.2 ++ [page]) else kv)
  else acc ++ [(tagId, [page])]

/-- The page→tags cross-reference scan: for every entry and every tag id in
its frontmatter, record the page (id used as slug, as in `part_010`). -/
def tagUsageOf (entries : List DocsEntry) : List (String × List PageRef) :=
  entries.foldl
    (fun acc entry =>
      entry.tags.foldl
        (fun acc tagId =>
          addUsage acc tagId
            { id := entry.id, slug := entry.id, title := entry.title,
              descr := entry.descr })
        acc)
    []

/-! The `part_010` relationship computations.  `buildPrerequisiteChain`
there threads one shared mutable `visited` set through the whole recursion
(per top-level tag), modelled by passing the set in and returning the
updated set; the fuel mirrors `chainGo` and is unreachable for the wrapper
bound. -/

/-- The prerequisite loop of the legacy chain, threading the shared visited
set. -/
def chainLoopL (m : TagMap)
    (recurse : String → List String → Option (List String × List String × List String)) :
    List String → List String → Option (List String × List String × List String)
  | [], vis => some ([], [], vis)
  | p :: ps, vis =>
    if mapHas m p then
      match recurse p vis with
      | none => none
      | some (sub, w₁, vis') =>
        match chainLoopL m recurse ps vis' with
        | none => none
        | some (rest, w₂, vis'') => some (p :: (sub ++ rest), w₁ ++ w₂, vis'')
    else chainLoopL m recurse ps vis

/-- Fueled embedding of the legacy `buildPrerequisiteChain(tagId, visited)`
with its shared visited set. -/
def chainGoL (m : TagMap) : Nat → String → List String →
    Option (List String × List String × List String)
  | 0, _, _ => none
  | fuel + 1, tagId, vis =>
    if tagId ∈ vis then some ([], [tagId], vis)
    else
      match mapGet m tagId with
      | none => some ([], [], vis)
      | some tag =>
        if tag.prerequisites = [] then some ([], [], vis)
        else
          match chainLoopL m (fun p v => chainGoL m fuel p v)
              tag.prerequisites (vis ++ [tagId]) with
          | none => none
          | some (chain, w, vis') => some (jsDedup chain, w, vis')

/-- Legacy chain wrapper (fresh visited set per top-level tag). -/
def buildPrerequisiteChainL (m : TagMap) (tagId : String) :
    Option (List String × List String) :=
  (chainGoL m (chainFuel m) tagId []).map (fun r => (r.1, r.2.1))

/-- The legacy related-tags loop: subject equality (truthy subject) or a
shared learning objective, with early termination at 5. -/
def relLoopL (tagId : String) (currentTag : ProcessedTag) :
    List (String × ProcessedTag) → List String → List String
  | [], acc => acc
  | kv :: rest, acc =>
    if kv.1 = tagId then relLoopL tagId currentTag rest acc
    else if 5 ≤ acc.length then acc
    else if (optTruthy currentTag.subject).isSome ∧
        kv.2.subject = optTruthy currentTag.subject then
      relLoopL tagId currentTag rest (acc ++ [kv.1])
    else if currentTag.learningObjectives.any
        (fun obj => kv.2.learningObjectives.contains obj) then
      relLoopL tagId currentTag rest (acc ++ [kv.1])
    else relLoopL tagId currentTag rest acc

/-- Model of the legacy `findRelatedTags`. -/
def findRelatedTagsL (m : TagMap) (tagId : String) : List String :=
  match mapGet m tagId with
  | none => []
  | some currentTag => relLoopL tagId currentTag m []

/-- The legacy relatedness test, as a predicate: the current tag has a truthy
subject equal to the other tag's subject, or the two tags share a learning
objective. -/
def legacyRelated (currentTag otherTag : ProcessedTag) : Bool :=
  decide ((optTruthy currentTag.subject).isSome ∧
      otherTag.subject = optTruthy currentTag.subject) ||
    currentTag.learningObjectives.any
      (fun obj => otherTag.learningObjectives.contains obj)

/-- The legacy related-tags computation described directly: the other map
entries related by subject or by a shared learning objective, in insertion
order, truncated to the first 5 (`MAX_RELATED_TAGS`). -/
def legacyRelatedSpec (m : TagMap) (tagId : String) : List String :=
  match mapGet m tagId with
  | none => []
  | some currentTag =>
    (((m.filter (fun kv => kv.1 ≠ tagId)).filter
      (fun kv => legacyRelated currentTag kv.2)).map (fun kv => kv.1)).take 5

/-- The legacy loop with its early break collects exactly the first
`5 - acc.length` related entries. -/
theorem relLoopL_eq_take (tagId : String) (currentTag : ProcessedTag) :
    ∀ (l : List (String × ProcessedTag)) (acc : List String),
      relLoopL tagId currentTag l acc =
        acc ++ ((((l.filter (fun kv => kv.1 ≠ tagId)).filter
          (fun kv => legacyRelated currentTag kv.2)).map
            (fun kv => kv.1)).take (5 - acc.length)) := by
  intro l
  induction l with
  | nil =>
    intro acc
    simp [relLoopL]
  | cons kv rest ih =>
    intro acc
    rw [relLoopL]
    by_cases hself : kv.1 = tagId
    · rw [if_pos hself, ih]
      rw [List.filter_cons_of_neg (by simpa using hself)]
    · rw [if_neg hself]
      rw [List.filter_cons_of_pos (by simpa using hself)]
      by_cases h5 : 5 ≤ acc.length
      · rw [if_pos h5, Nat.sub_eq_zero_of_le h5]
        simp
      · rw [if_neg h5]
        by_cases hsubj : (optTruthy currentTag.subject).isSome ∧
            kv.2.subject = optTruthy currentTag.subject
        · rw [if_pos hsubj, ih]
          rw [List.filter_cons_of_pos (by simp [legacyRelated, hsubj])]
          rw [List.map_cons]
          rw [show 5 - acc.length = (5 - (acc.length + 1)) + 1 by omega]
          rw [List.take_succ_cons]
          simp
        · rw [if_neg hsubj]
          by_cases hobj : currentTag.learningObjectives.any
              (fun obj => kv.2.learningObjectives.contains obj) = true
          · rw [if_pos hobj, ih]
            have hrel : legacyRelated currentTag kv.2 = true := by
              unfold legacyRelated
              rw [Bool.or_eq_true]
              exact Or.inr hobj
            rw [List.filter_cons_of_pos (by simpa using hrel)]
            rw [List.map_cons]
            rw [show 5 - acc.length = (5 - (acc.length + 1)) + 1 by omega]
            rw [List.take_succ_cons]
            simp
          · rw [if_neg hobj, ih]
            have hrel : legacyRelated currentTag kv.2 = false := by
              unfold legacyRelated
              rw [Bool.or_eq_false_iff]
              exact ⟨decide_eq_false hsubj, Bool.eq_false_iff.mpr hobj⟩
            rw [List.filter_cons_of_neg (by simp [hrel])]

/-- C6, counterexample: the claim also cites the part_010 `findRelatedTags`
(lines 271-292), which relates tags by shared subject or learning objectives
and never scores prerequisite links.  On the configuration where `a` and `b`
list each other as prerequisites and share no subject, objectives or pages,
the claimed scoring computation gives `b` a positive score and returns
`["b"]` for `a`, but the part_010 implementation returns `[]`. -/
theorem c6_legacy_not_scored :
    relatedTagsSpec cyclicMap "a" = ["b"] ∧
      findRelatedTagsL cyclicMap "a" = [] ∧
      findRelatedTagsL cyclicMap "a" ≠ relatedTagsSpec cyclicMap "a" :=
  ⟨by decide, by decide, by decide⟩

/-- C6 (amended): the url.ts `findRelatedTags` computes exactly the claimed
description — score each other tag as twice the shared pages plus 3 for each
direction of prerequisite listing, keep positive scores, sort by score
descending, truncate to 5 — while the part_010 `findRelatedTags` instead
returns the first 5 other tags that share the current tag's truthy subject
or one of its learning objectives, in insertion order; both return at most 5
tags. -/
theorem c6_findRelatedTags_spec (m : TagMap) (tagId : String) :
    (findRelatedTags m tagId = relatedTagsSpec m tagId ∧
      (findRelatedTags m tagId).length ≤ 5) ∧
    (findRelatedTagsL m tagId = legacyRelatedSpec m tagId ∧
      (findRelatedTagsL m tagId).length ≤ 5) := by
  have hleg : findRelatedTagsL m tagId = legacyRelatedSpec m tagId := by
    unfold findRelatedTagsL legacyRelatedSpec
    cases mapGet m tagId with
    | none => rfl
    | some currentTag =>
      dsimp only
      rw [relLoopL_eq_take]
      simp
  refine ⟨findRelatedTags_eq_spec m tagId, hleg, ?_⟩
  rw [hleg]
  unfold legacyRelatedSpec
  cases mapGet m tagId with
  | none => simp
  | some currentTag =>
    dsimp only
    exact List.length_take_le 5 _

/-- `DIFFICULTY_ORDER.indexOf`, with `-1` for an absent or unknown
difficulty. -/
def diffIndex (d : Option String) : Int :=
  match d with
  | none => -1
  | some s =>
    if s = "beginner" then 0
    else if s = "intermediate" then 1
    else if s = "advanced" then 2
    else -1

/-- Model of the legacy `findNextSteps`: tags listing the current tag as a
prerequisite, or the next difficulty level in the same subject; truncated to
5. -/
def findNextStepsL (m : TagMap) (tagId : String) : List String :=
  match mapGet m tagId with
  | none => []
  | some currentTag =>
    let currentIdx := diffIndex currentTag.difficulty
    (m.foldr
      (fun kv acc =>
        if kv.1 = tagId then acc
        else if tagId ∈ kv.2.prerequisites then kv.1 :: acc
        else if currentTag.subject = kv.2.subject ∧
            (optTruthy kv.2.difficulty).isSome ∧ 0 ≤ currentIdx ∧
            diffIndex kv.2.difficulty = currentIdx + 1 then
          kv.1 :: acc
        else acc)
      []).take 5

/-- Model of the legacy `calculateEducationalRelationships`: rebuild every
tag's chain, related tags and next steps from the processed map. -/
def calcRelationshipsL (m : TagMap) : Option TagMap :=
  m.mapM (fun kv =>
    (buildPrerequisiteChainL m kv.1).map (fun cw =>
      (kv.1,
        { kv.2 with
          prerequisiteChain := cw.1,
          relatedTags := findRelatedTagsL m kv.1,
          nextSteps := findNextStepsL m kv.1 })))

/-- Model of the `part_010` `processTagsData`: cross-reference the page
corpus, build a `ProcessedTag` for every defined tag (tags without pages get
`count = 0`), compute relationships, then validate inline tags per policy
(`error` throws, `warn` logs, `ignore` skips the check). -/
def processTagsData (cfg : PluginCfg) (entries : List DocsEntry)
    (tagsData : TagsConfig) : Except String TagMap :=
  let tagUsage := tagUsageOf entries
  let processed : TagMap := tagsData.tags.map (fun kv =>
    let pages := (List.lookup kv.1 tagUsage).getD []
    (kv.1,
      { id := kv.1,
        slug := generateTagSlug kv.1 kv.2.permalink,
        url := generateTagUrl cfg kv.1 kv.2.permalink,
        label := kv.2.label,
        descr := kv.2.descr,
        color := jsOr kv.2.color (tagsData.defaults.bind (fun d => d.color)),
        icon := kv.2.icon,
        permalink := kv.2.permalink,
        hidden := kv.2.hidden,
        difficulty := kv.2.difficulty,
        contentType := kv.2.contentType,
        subject := kv.2.subject,
        prerequisites := kv.2.prerequisites.getD [],
        learningObjectives := kv.2.learningObjectives.getD [],
        estimatedTime := kv.2.estimatedTime,
        skillLevel := kv.2.skillLevel,
        count := pages.length,
        pages := pages.map (fun page =>
          { page with
            slug := if page.slug = "" then page.id else page.slug,
            tags := ((entries.find? (fun e => e.id == page.id)).map
              (fun e => e.tags)).getD [] }) }))
  match calcRelationshipsL processed with
  | none => .error "internal: relationship fuel exhausted"
  | some processed2 =>
    if cfg.onInlineTagsNotFound ≠ .ignore then
      let undefinedTags := (tagUsage.map (fun kv => kv.1)).filter
        (fun t => ¬ tagsData.tags.any (fun kv => kv.1 == t))
      if undefinedTags ≠ [] ∧ cfg.onInlineTagsNotFound = .error then
        .error "Found undefined tags in frontmatter"
      else .ok processed2
    else .ok processed2

/-- Model of the `part_010` `initialize()`: load, then process; errors
propagate (the catch block logs and rethrows). -/
def initTags {α : Type} (cfg : PluginCfg) (entries : List DocsEntry)
    (parse : α → Except String TagsConfig) (file : ReadResult α) :
    Except String TagMap :=
  match loadTagsConfig parse file with
  | .error msg => .error msg
  | .ok tagsData => processTagsData cfg entries tagsData

/-- The `url.ts` `initialize()`: same pipeline behind the strict loader (for
a missing file the pipeline is never reached). -/
def initTagsStrict {α : Type} (cfg : PluginCfg) (entries : List DocsEntry)
    (parse : α → Except String TagsConfig) (file : ReadResult α) :
    Except String TagMap :=
  match loadTagsConfigStrict parse file with
  | .error msg => .error msg
  | .ok tagsData => processTagsData cfg entries tagsData

/-- C2 counterexample: a run of `initialize()` with the tag-definition file
absent that throws — the `url.ts` variant of `loadTagsConfig` turns `ENOENT`
into a thrown file-not-found error, so "processing succeeds and initialize()
does not throw" fails on it. -/
theorem c2_strict_enoent_throws :
    initTagsStrict { } ([] : List DocsEntry)
        (fun _ : Unit => Except.ok { tags := [] }) ReadResult.enoent =
      Except.error "[starlight-tags] Tags configuration file not found" :=
  rfl

/-- C2 (amended): in the `part_010` processor a missing tag-definition file
degrades to the empty tag set and `initialize()` succeeds (provided the
inline-tag policy does not escalate undefined page tags to an error), and a
structurally invalid file makes `initialize()` throw; in the `url.ts`
processor a missing file also makes `initialize()` throw, with a dedicated
file-not-found message. -/
theorem c2_load_failure_semantics :
    (∀ (α : Type) (cfg : PluginCfg) (entries : List DocsEntry)
      (parse : α → Except String TagsConfig),
      cfg.onInlineTagsNotFound ≠ .error →
        initTags cfg entries parse .enoent = .ok []) ∧
      (∀ (α : Type) (cfg : PluginCfg) (entries : List DocsEntry)
        (parse : α → Except String TagsConfig) (raw : α) (msg : String),
        parse raw = .error msg →
          initTags cfg entries parse (.ok raw) =
            .error ("Invalid tags configuration: " ++ msg)) ∧
      (∀ (α : Type) (cfg : PluginCfg) (entries : List DocsEntry)
        (parse : α → Except String TagsConfig),
        initTagsStrict cfg entries parse .enoent =
          .error "[starlight-tags] Tags configuration file not found") := by
  refine ⟨?_, ?_, ?_⟩
  · intro α cfg entries parse hpol
    unfold initTags loadTagsConfig
    dsimp only
    unfold processTagsData
    dsimp only
    rw [List.map_nil]
    rw [show calcRelationshipsL [] = some [] from rfl]
    dsimp only
    by_cases hig : cfg.onInlineTagsNotFound ≠ InlinePolicy.ignore
    · rw [if_pos hig]
      rw [if_neg (by
        rintro ⟨-, habs⟩
        exact hpol habs)]
    · rw [if_neg hig]
  · intro α cfg entries parse raw msg hparse
    unfold initTags loadTagsConfig
    dsimp only
    rw [hparse]
  · intro α cfg entries parse
    rfl

/-- C2 witness: the amended statement applied at a concrete configuration
(default config with policy `warn`, no entries, a parser that always
rejects). -/
theorem c2_load_failure_semantics_witness :
    (PluginCfg.onInlineTagsNotFound { } ≠ InlinePolicy.error ∧
        initTags { } ([] : List DocsEntry)
          (fun _ : Unit => Except.error "not an object") ReadResult.enoent =
          .ok []) ∧
      ((fun _ : Unit => (Except.error "not an object" : Except String TagsConfig)) () =
          .error "not an object" ∧
        initTags { } ([] : List DocsEntry)
          (fun _ : Unit => Except.error "not an object") (.ok ()) =
          .error ("Invalid tags configuration: " ++ "not an object")) := by
  refine ⟨⟨by decide, ?_⟩, rfl, ?_⟩
  · exact (c2_load_failure_semantics.1 Unit { } []
      (fun _ => Except.error "not an object") (by decide))
  · exact (c2_load_failure_semantics.2.1 Unit { } []
      (fun _ => Except.error "not an object") () "not an object" rfl)

/-! ### The Tags Store: single-flight memoized initialization (part_012
lines 40-94, equivalently part_011)

The store is module-level state (`cachedProcessor`, `initializationPromise`)
manipulated by `initializeTagsStore` under the cooperative event-loop: the
fast-path check, the in-flight check and the creation of the shared promise
form one synchronous (run-to-completion) segment with no suspension point;
the promise body (`performInitialization`) suspends at the page-corpus fetch
and at the processing pass, then commits the processor and resolves.

The embedding is a small-step transition system: each constructor of `Step`
is one run-to-completion segment.  Results and promises are numbered so that
"all callers resolve with equal results" is expressible; the successful body
resolves its promise with the processor it built (numbered by the promise).
The failure branch (which clears the promise and the cache together to allow
a retry) is outside this claim, which is about the successful pass. -/

/-- Where the in-flight `performInitialization` is suspended: before the
page-corpus fetch, before the processing pass, or before the synchronous
commit-and-resolve tail. -/
inductive BodyPhase where
  | fetch
  | process
  | commit
deriving DecidableEq, Repr

/-- The module-level store, plus instrumentation: how many corpus fetches
and processing passes ran, how many promises were ever created, and the
resolved promises with their results. -/
structure StoreState where
  cachedProcessor : Option Nat := none
  initializationPromise : Option Nat := none
  fetchCount : Nat := 0
  processCount : Nat := 0
  promisesMade : Nat := 0
  body : Option (Nat × BodyPhase) := none
  resolved : List (Nat × Nat) := []
deriving DecidableEq, Repr

/-- One caller of `initializeTagsStore`: not yet run, awaiting a promise, or
returned with a result. -/
inductive CallerState where
  | start
  | waiting (pid : Nat)
  | done (r : Nat)
deriving DecidableEq, Repr

/-- The whole system: the store and the `N` concurrent callers. -/
structure SysState where
  store : StoreState
  callers : List CallerState
deriving DecidableEq, Repr

/-- The uninitialized store with `N` callers about to run. -/
def initSys (n : Nat) : SysState :=
  ⟨{ }, List.replicate n .start⟩

/-- One cooperative scheduling step.  The three `caller*` constructors are
the one synchronous segment of `initializeTagsStore` (fast path; join the
pending promise; atomically create the promise and start the body); the
`body*` constructors advance `performInitialization` across its suspension
points; `callerResolve` wakes a caller whose awaited promise resolved. -/
inductive Step : SysState → SysState → Prop where
  | callerCached (σ : SysState) (i r : Nat)
      (hc : σ.callers.get? i = some .start)
      (hcache : σ.store.cachedProcessor = some r) :
      Step σ ⟨σ.store, σ.callers.set i (.done r)⟩
  | callerJoin (σ : SysState) (i p : Nat)
      (hc : σ.callers.get? i = some .start)
      (hcache : σ.store.cachedProcessor = none)
      (hp : σ.store.initializationPromise = some p) :
      Step σ ⟨σ.store, σ.callers.set i (.waiting p)⟩
  | callerCreate (σ : SysState) (i : Nat)
      (hc : σ.callers.get? i = some .start)
      (hcache : σ.store.cachedProcessor = none)
      (hp : σ.store.initializationPromise = none) :
      Step σ
        ⟨{ σ.store with
            initializationPromise := some σ.store.promisesMade,
            promisesMade := σ.store.promisesMade + 1,
            body := some (σ.store.promisesMade, .fetch) },
          σ.callers.set i (.waiting σ.store.promisesMade)⟩
  | bodyFetch (σ : SysState) (p : Nat)
      (hb : σ.store.body = some (p, .fetch)) :
      Step σ
        ⟨{ σ.store with
            fetchCount := σ.store.fetchCount + 1,
            body := some (p, .process) },
          σ.callers⟩
  | bodyProcess (σ : SysState) (p : Nat)
      (hb : σ.store.body = some (p, .process)) :
      Step σ
        ⟨{ σ.store with
            processCount := σ.store.processCount + 1,
            body := some (p, .commit) },
          σ.callers⟩
  | bodyCommit (σ : SysState) (p : Nat)
      (hb : σ.store.body = some (p, .commit)) :
      Step σ
        ⟨{ σ.store with
            cachedProcessor := some p,
            resolved := (p, p) :: σ.store.resolved,
            body := none },
          σ.callers⟩
  | callerResolve (σ : SysState) (i p r : Nat)
      (hc : σ.callers.get? i = some (.waiting p))
      (hr : (p, r) ∈ σ.store.resolved) :
      Step σ ⟨σ.store, σ.callers.set i (.done r)⟩

/-- The store states of the single successful pass, in order. -/
def storeFetch : StoreState :=
  { initializationPromise := some 0, promisesMade := 1, body := some (0, .fetch) }

def storeProcess : StoreState :=
  { initializationPromise := some 0, promisesMade := 1, fetchCount := 1,
    body := some (0, .process) }

def storeCommit : StoreState :=
  { initializationPromise := some 0, promisesMade := 1, fetchCount := 1,
    processCount := 1, body := some (0, .commit) }

def storeDone : StoreState :=
  { cachedProcessor := some 0, initializationPromise := some 0,
    promisesMade := 1, fetchCount := 1, processCount := 1,
    resolved := [(0, 0)] }

/-- The store only ever moves along the five states of the single pass. -/
def StoreOk (s : StoreState) : Prop :=
  s = { } ∨ s = storeFetch ∨ s = storeProcess ∨ s = storeCommit ∨ s = storeDone

/-- What a caller may look like given the store: a waiting caller always
awaits promise 0 and only once it exists; a finished caller always holds
result 0 and only once the pass committed. -/
def CallerOk (s : StoreState) : CallerState → Prop
  | .start => True
  | .waiting p =>
    p = 0 ∧ (s = storeFetch ∨ s = storeProcess ∨ s = storeCommit ∨ s = storeDone)
  | .done r => r = 0 ∧ s = storeDone

def SysInv (σ : SysState) : Prop :=
  StoreOk σ.store ∧ ∀ c ∈ σ.callers, CallerOk σ.store c

theorem sysInv_init (n : Nat) : SysInv (initSys n) := by
  constructor
  · exact Or.inl rfl
  · intro c hc
    rw [List.eq_of_mem_replicate hc]
    trivial

theorem sysInv_step {σ σ' : SysState} (hstep : Step σ σ') (hinv : SysInv σ) :
    SysInv σ' := by
  obtain ⟨hstore, hcallers⟩ := hinv
  cases hstep with
  | callerCached i r hc hcache =>
    have hs : σ.store = storeDone := by
      rcases hstore with h | h | h | h | h <;>
        first
          | (exfalso; rw [h] at hcache; simp [storeFetch, storeProcess, storeCommit] at hcache)
          | exact h
    have hr : r = 0 := by
      rw [hs] at hcache
      cases hcache
      rfl
    refine ⟨hstore, ?_⟩
    intro c hcmem
    rcases List.mem_or_eq_of_mem_set hcmem with hmem | hceq
    · exact hcallers c hmem
    · rw [hceq, hr]
      exact ⟨rfl, hs⟩
  | callerJoin i p hc hcache hp =>
    have hs : σ.store = storeFetch ∨ σ.store = storeProcess ∨
        σ.store = storeCommit ∨ σ.store = storeDone := by
      rcases hstore with h | h | h | h | h
      · exfalso; rw [h] at hp; simp at hp
      · exact Or.inl h
      · exact Or.inr (Or.inl h)
      · exact Or.inr (Or.inr (Or.inl h))
      · exact Or.inr (Or.inr (Or.inr h))
    have hp0 : p = 0 := by
      rcases hs with h | h | h | h <;>
        (rw [h] at hp
         simp [storeFetch, storeProcess, storeCommit, storeDone] at hp
         omega)
    refine ⟨hstore, ?_⟩
    intro c hcmem
    rcases List.mem_or_eq_of_mem_set hcmem with hmem | hceq
    · exact hcallers c hmem
    · rw [hceq, hp0]
      exact ⟨rfl, hs⟩
  | callerCreate i hc hcache hp =>
    have hs : σ.store = { } := by
      rcases hstore with h | h | h | h | h
      · exact h
      all_goals
        (exfalso; rw [h] at hp;
         simp [storeFetch, storeProcess, storeCommit, storeDone] at hp)
    have hnew : ({ σ.store with
        initializationPromise := some σ.store.promisesMade,
        promisesMade := σ.store.promisesMade + 1,
        body := some (σ.store.promisesMade, .fetch) } : StoreState) = storeFetch := by
      rw [hs]
      rfl
    refine ⟨Or.inr (Or.inl hnew), ?_⟩
    intro c hcmem
    rcases List.mem_or_eq_of_mem_set hcmem with hmem | hceq
    · have hok := hcallers c hmem
      cases c with
      | start => trivial
      | waiting q =>
        exfalso
        rcases hok.2 with h | h | h | h <;>
          (rw [hs] at h; simp [storeFetch, storeProcess, storeCommit, storeDone] at h)
      | done r =>
        exfalso
        have := hok.2
        rw [hs] at this
        simp [storeDone] at this
    · rw [hceq, hnew]
      have hz : σ.store.promisesMade = 0 := by rw [hs]
      rw [hz]
      exact ⟨rfl, Or.inl rfl⟩
  | bodyFetch p hb =>
    have hs : σ.store = storeFetch := by
      rcases hstore with h | h | h | h | h <;>
        first
          | (exfalso; rw [h] at hb;
             simp [storeProcess, storeCommit, storeDone] at hb)
          | exact h
    have hnew : ({ σ.store with
        fetchCount := σ.store.fetchCount + 1,
        body := some (p, .process) } : StoreState) = storeProcess := by
      have hp0 : p = 0 := by
        rw [hs] at hb
        simp [storeFetch] at hb
        omega
      rw [hs, hp0]
      rfl
    refine ⟨Or.inr (Or.inr (Or.inl hnew)), ?_⟩
    intro c hcmem
    have hok := hcallers c hcmem
    cases c with
    | start => trivial
    | waiting q =>
      refine ⟨hok.1, ?_⟩
      rw [hnew]
      exact Or.inr (Or.inl rfl)
    | done r =>
      exfalso
      have := hok.2
      rw [hs] at this
      simp [storeFetch, storeDone] at this
  | bodyProcess p hb =>
    have hs : σ.store = storeProcess := by
      rcases hstore with h | h | h | h | h <;>
        first
          | (exfalso; rw [h] at hb;
             simp [storeFetch, storeCommit, storeDone] at hb)
          | exact h
    have hnew : ({ σ.store with
        processCount := σ.store.processCount + 1,
        body := some (p, .commit) } : StoreState) = storeCommit := by
      have hp0 : p = 0 := by
        rw [hs] at hb
        simp [storeProcess] at hb
        omega
      rw [hs, hp0]
      rfl
    refine ⟨Or.inr (Or.inr (Or.inr (Or.inl hnew))), ?_⟩
    intro c hcmem
    have hok := hcallers c hcmem
    cases c with
    | start => trivial
    | waiting q =>
      refine ⟨hok.1, ?_⟩
      rw [hnew]
      exact Or.inr (Or.inr (Or.inl rfl))
    | done r =>
      exfalso
      have := hok.2
      rw [hs] at this
      simp [storeProcess, storeDone] at this
  | bodyCommit p hb =>
    have hs : σ.store = storeCommit := by
      rcases hstore with h | h | h | h | h <;>
        first
          | (exfalso; rw [h] at hb;
             simp [storeFetch, storeProcess, storeDone] at hb)
          | exact h
    have hnew : ({ σ.store with
        cachedProcessor := some p,
        resolved := (p, p) :: σ.store.resolved,
        body := none } : StoreState) = storeDone := by
      have hp0 : p = 0 := by
        rw [hs] at hb
        simp [storeCommit] at hb
        omega
      rw [hs, hp0]
      rfl
    refine ⟨Or.inr (Or.inr (Or.inr (Or.inr hnew))), ?_⟩
    intro c hcmem
    have hok := hcallers c hcmem
    cases c with
    | start => trivial
    | waiting q =>
      refine ⟨hok.1, ?_⟩
      rw [hnew]
      exact Or.inr (Or.inr (Or.inr rfl))
    | done r =>
      exfalso
      have := hok.2
      rw [hs] at this
      simp [storeCommit, storeDone] at this
  | callerResolve i p r hc hr =>
    have hs : σ.store = storeDone := by
      rcases hstore with h | h | h | h | h <;>
        first
          | (exfalso; rw [h] at hr;
             simp [storeFetch, storeProcess, storeCommit] at hr)
          | exact h
    have hr0 : r = 0 := by
      rw [hs] at hr
      simp [storeDone] at hr
      exact hr.2
    refine ⟨hstore, ?_⟩
    intro c hcmem
    rcases List.mem_or_eq_of_mem_set hcmem with hmem | hceq
    · exact hcallers c hmem
    · rw [hceq, hr0]
      exact ⟨rfl, hs⟩

theorem step_callers_length {σ σ' : SysState} (h : Step σ σ') :
    σ'.callers.length = σ.callers.length := by
  cases h <;> simp

theorem reach_callers_length {n : Nat} {σ : SysState}
    (h : Relation.ReflTransGen Step (initSys n) σ) : σ.callers.length = n := by
  induction h with
  | refl => simp [initSys]
  | tail _ hstep ih => rw [step_callers_length hstep, ih]

theorem sysInv_reachable {n : Nat} {σ : SysState}
    (h : Relation.ReflTransGen Step (initSys n) σ) : SysInv σ := by
  induction h with
  | refl => exact sysInv_init n
  | tail _ hstep ih => exact sysInv_step hstep ih

/-- C3: for every `N ≥ 1` and every cooperative interleaving of `N`
concurrent `initializeTagsStore` calls on the uninitialized store, every
caller that awaits awaits the one shared promise; when all `N` callers have
resolved, exactly one page-corpus fetch and exactly one processing pass have
run, and all callers resolved with the same result (the single processor the
pass committed); and once the pass has succeeded, no step changes the store
again — a subsequent call returns via the fast path without reprocessing. -/
theorem c3_single_flight (n : Nat) (hn : 1 ≤ n) (σ : SysState)
    (hreach : Relation.ReflTransGen Step (initSys n) σ) :
    (∀ c ∈ σ.callers, ∀ p, c = CallerState.waiting p → p = 0) ∧
      ((∀ c ∈ σ.callers, ∃ r, c = CallerState.done r) →
        σ.store.fetchCount = 1 ∧ σ.store.processCount = 1 ∧
          ∀ c ∈ σ.callers, c = CallerState.done 0) ∧
      (∀ τ τ' : SysState, τ.store = storeDone → Step τ τ' →
        τ'.store = storeDone) := by
  obtain ⟨hstore, hcallers⟩ := sysInv_reachable hreach
  have hlen : σ.callers.length = n := reach_callers_length hreach
  refine ⟨?_, ?_, ?_⟩
  · intro c hc p hcp
    subst hcp
    exact (hcallers _ hc).1
  · intro hdone
    have hne : σ.callers ≠ [] := by
      intro habs
      rw [habs] at hlen
      simp at hlen
      omega
    obtain ⟨c₀, hc₀⟩ := List.exists_mem_of_ne_nil _ hne
    obtain ⟨r₀, hr₀⟩ := hdone c₀ hc₀
    have hok := hcallers c₀ hc₀
    rw [hr₀] at hok
    have hsdone : σ.store = storeDone := hok.2
    refine ⟨by rw [hsdone]; rfl, by rw [hsdone]; rfl, ?_⟩
    intro c hc
    obtain ⟨r, hr⟩ := hdone c hc
    have hokc := hcallers c hc
    rw [hr] at hokc ⊢
    rw [hokc.1]
  · intro τ τ' hτ hstep
    cases hstep with
    | callerCached i r hc hcache => exact hτ
    | callerJoin i p hc hcache hp => exact hτ
    | callerCreate i hc hcache hp =>
      exfalso
      rw [hτ] at hcache
      simp [storeDone] at hcache
    | bodyFetch p hb =>
      exfalso
      rw [hτ] at hb
      simp [storeDone] at hb
    | bodyProcess p hb =>
      exfalso
      rw [hτ] at hb
      simp [storeDone] at hb
    | bodyCommit p hb =>
      exfalso
      rw [hτ] at hb
      simp [storeDone] at hb
    | callerResolve i p r hc hr => exact hτ

/-- C3 witness: a complete run for one caller — create the promise, fetch,
process, commit, resolve — after which the theorem yields one fetch, one
pass, and the caller finished with the shared result. -/
theorem c3_single_flight_witness :
    1 ≤ 1 ∧
      (storeDone.fetchCount = 1 ∧ storeDone.processCount = 1 ∧
        ∀ c ∈ (⟨storeDone, [CallerState.done 0]⟩ : SysState).callers,
          c = CallerState.done 0) := by
  have h1 : Step (initSys 1) ⟨storeFetch, [CallerState.waiting 0]⟩ := by
    have := Step.callerCreate (initSys 1) 0 (by rfl) (by rfl) (by rfl)
    simpa [initSys, storeFetch] using this
  have h2 : Step (⟨storeFetch, [CallerState.waiting 0]⟩ : SysState)
      ⟨storeProcess, [CallerState.waiting 0]⟩ := by
    have := Step.bodyFetch (⟨storeFetch, [CallerState.waiting 0]⟩ : SysState) 0 (by rfl)
    simpa [storeFetch, storeProcess] using this
  have h3 : Step (⟨storeProcess, [CallerState.waiting 0]⟩ : SysState)
      ⟨storeCommit, [CallerState.waiting 0]⟩ := by
    have := Step.bodyProcess (⟨storeProcess, [CallerState.waiting 0]⟩ : SysState) 0 (by rfl)
    simpa [storeProcess, storeCommit] using this
  have h4 : Step (⟨storeCommit, [CallerState.waiting 0]⟩ : SysState)
      ⟨storeDone, [CallerState.waiting 0]⟩ := by
    have := Step.bodyCommit (⟨storeCommit, [CallerState.waiting 0]⟩ : SysState) 0 (by rfl)
    simpa [storeCommit, storeDone] using this
  have h5 : Step (⟨storeDone, [CallerState.waiting 0]⟩ : SysState)
      ⟨storeDone, [CallerState.done 0]⟩ := by
    have := Step.callerResolve (⟨storeDone, [CallerState.waiting 0]⟩ : SysState)
      0 0 0 (by rfl) (by simp [storeDone])
    simpa using this
  have hreach : Relation.ReflTransGen Step (initSys 1)
      ⟨storeDone, [CallerState.done 0]⟩ :=
    Relation.ReflTransGen.head h1 (Relation.ReflTransGen.head h2
      (Relation.ReflTransGen.head h3 (Relation.ReflTransGen.head h4
        (Relation.ReflTransGen.single h5))))
  refine ⟨by decide,
    (c3_single_flight 1 (by decide)
      ⟨storeDone, [CallerState.done 0]⟩ hreach).2.1 ?_⟩
  intro c hc
  exact ⟨0, by simpa using hc⟩

/-! ### getLearningPath (url.ts lines 512-558, utils.ts lines 40-87)

Without an end tag the method returns the start tag's `nextSteps`.  With one
it runs breadth-first search over the `nextSteps` adjacency, marking nodes
visited at enqueue time and recording parent pointers, and reconstructs the
path by walking the parent map back from the end node, finally unshifting
the start node.  The embedding carries explicit fuel; `bfsUniverse` (the
start node and every `nextSteps` entry of the map) bounds the number of loop
iterations, and the fuel is shown never exhausted. -/

/-- The `nextSteps` successors read by the BFS loop
(`tags.get(current)?.nextSteps || []`). -/
def succs (m : TagMap) (x : String) : List String :=
  match mapGet m x with
  | some t => t.nextSteps
  | none => []

/-- The edge relation of the search: `b` is among the next steps of `a`. -/
def stepRel (m : TagMap) (a b : String) : Prop :=
  b ∈ succs m a

/-- Model of the reconstruction loop `while (node && parent.has(node))
{ path.unshift(node); node = parent.get(node) }`: the node list from the
topmost parented ancestor down to `node`. -/
def tracePath (parent : List (String × String)) : Nat → String → Option (List String)
  | 0, _ => none
  | fuel + 1, node =>
    match List.lookup node parent with
    | none => some []
    | some p =>
      match tracePath parent fuel p with
      | none => none
      | some pre => some (pre ++ [node])

/-- Model of the `for (const nextStep of ...)` enqueue loop: unvisited next
steps are appended to the queue and visited set and given `current` as
parent. -/
def enqueueAll (current : String) :
    List String → List String × List String × List (String × String) →
      List String × List String × List (String × String)
  | [], st => st
  | ns :: rest, (q, v, par) =>
    if ns ∈ v then enqueueAll current rest (q, v, par)
    else enqueueAll current rest (q ++ [ns], v ++ [ns], par ++ [(ns, current)])

/-- Fueled embedding of the BFS `while (queue.length > 0)` loop.  On a match
with the end tag the parent chain is traced and the start node unshifted; an
empty queue returns the empty path. -/
def bfsGo (m : TagMap) (startId endId : String) :
    Nat → List String → List String → List (String × String) → Option (List String)
  | 0, _, _, _ => none
  | fuel + 1, queue, visited, parent =>
    match queue with
    | [] => some []
    | current :: rest =>
      if current = endId then
        match tracePath parent (parent.length + 1) endId with
        | none => none
        | some p => some (startId :: p)
      else
        let st := enqueueAll current (succs m current) (rest, visited, parent)
        bfsGo m startId endId fuel st.1 st.2.1 st.2.2

/-- Every node the search can ever enqueue: the start node and every
`nextSteps` entry of the map. -/
def bfsUniverse (m : TagMap) (startId : String) : List String :=
  startId :: m.foldr (fun kv acc => kv.2.nextSteps ++ acc) []

/-- Model of `getLearningPath(startTagId, endTagId?)`: undefined start or
end tag yields `[]`; an omitted (or falsy, i.e. empty) end tag yields the
start tag's `nextSteps`; otherwise the BFS runs with the start node queued
and visited. -/
def getLearningPath (m : TagMap) (startId : String) (endId : Option String) :
    List String :=
  match mapGet m startId with
  | none => []
  | some startTag =>
    match endId with
    | none => startTag.nextSteps
    | some e =>
      if e = "" then startTag.nextSteps
      else
        match mapGet m e with
        | none => []
        | some _ =>
          (bfsGo m startId e ((bfsUniverse m startId).length + 1)
            [startId] [startId] []).getD []

/-- C10: for every defined tag `t` (tag ids are non-empty by schema),
`getLearningPath(t, t)` returns the one-element path `[t]`: the BFS matches
the end node on the first dequeue, the parent map is empty, and the
reconstruction yields just the start node. -/
theorem c10_learning_path_self (m : TagMap) (t : String) (tag : ProcessedTag)
    (hget : mapGet m t = some tag) (hne : t ≠ "") :
    getLearningPath m t (some t) = [t] := by
  unfold getLearningPath
  rw [hget]
  dsimp only
  rw [if_neg hne, hget]
  dsimp only
  rw [bfsGo]
  dsimp only
  rw [if_pos rfl]
  rfl

/-- C10 witness: the theorem applied to the cyclic two-tag configuration at
tag `a`. -/
theorem c10_learning_path_self_witness :
    mapGet cyclicMap "a" = some { id := "a", label := "A", prerequisites := ["b"] } ∧
      ("a" : String) ≠ "" ∧
      getLearningPath cyclicMap "a" (some "a") = ["a"] :=
  ⟨by decide, by decide,
    c10_learning_path_self cyclicMap "a"
      { id := "a", label := "A", prerequisites := ["b"] } (by decide) (by decide)⟩

/-! ### Reachability, distance and paths over the nextSteps adjacency -/

/-- `ReachN m s n x`: `x` is reachable from `s` in exactly `n` nextSteps
edges. -/
inductive ReachN (m : TagMap) (s : String) : Nat → String → Prop where
  | zero : ReachN m s 0 s
  | succ {n : Nat} {x y : String} :
      ReachN m s n x → y ∈ succs m x → ReachN m s (n + 1) y

def Reaches (m : TagMap) (s e : String) : Prop :=
  ∃ n, ReachN m s n e

/-- `n` is the exact edge distance from `s` to `e`. -/
def DistIs (m : TagMap) (s e : String) (n : Nat) : Prop :=
  ReachN m s n e ∧ ∀ k, ReachN m s k e → n ≤ k

/-- A path as the claim describes one: starts at `s`, ends at `e`, and each
consecutive pair is a nextSteps edge. -/
def IsNextPath (m : TagMap) (s e : String) (p : List String) : Prop :=
  p.head? = some s ∧ p.getLast? = some e ∧ p.Chain' (stepRel m)

theorem distIs_unique {m : TagMap} {s e : String} {n₁ n₂ : Nat}
    (h₁ : DistIs m s e n₁) (h₂ : DistIs m s e n₂) : n₁ = n₂ :=
  le_antisymm (h₁.2 _ h₂.1) (h₂.2 _ h₁.1)

theorem reaches_dist {m : TagMap} {s e : String} (h : Reaches m s e) :
    ∃ n, DistIs m s e n := by
  classical
  have hex : ∃ k, ReachN m s k e := h
  exact ⟨Nat.find hex, Nat.find_spec hex, fun k hk => Nat.find_min' hex hk⟩

theorem distIs_self (m : TagMap) (s : String) : DistIs m s s 0 :=
  ⟨ReachN.zero, fun k _ => Nat.zero_le k⟩

theorem reachN_zero_eq {m : TagMap} {s x : String} (h : ReachN m s 0 x) :
    x = s := by
  cases h
  rfl

theorem distIs_zero_eq {m : TagMap} {s x : String} (h : DistIs m s x 0) :
    x = s :=
  reachN_zero_eq h.1

/-- A set of nodes containing `s` and closed under successors contains
everything reachable from `s`. -/
theorem reach_mem_of_closed {m : TagMap} {s : String} {V : List String}
    (hs : s ∈ V) (hcl : ∀ x ∈ V, ∀ y ∈ succs m x, y ∈ V) :
    ∀ {n : Nat} {z : String}, ReachN m s n z → z ∈ V := by
  intro n z h
  induction h with
  | zero => exact hs
  | succ hr hy ih => exact hcl _ ih _ hy

/-- A `ReachN` witness unfolds into a concrete path. -/
theorem path_of_reachN {m : TagMap} {s : String} :
    ∀ {n : Nat} {e : String}, ReachN m s n e →
      ∃ p, IsNextPath m s e p ∧ p.length = n + 1 := by
  intro n e h
  induction h with
  | zero => exact ⟨[s], ⟨rfl, rfl, List.chain'_singleton s⟩, rfl⟩
  | @succ n x y hr hy ih =>
    obtain ⟨p, ⟨hhead, hlast, hchain⟩, hlen⟩ := ih
    have hpne : p ≠ [] := by
      intro habs
      rw [habs] at hhead
      simp at hhead
    refine ⟨p ++ [y], ⟨?_, ?_, ?_⟩, ?_⟩
    · rw [List.head?_append_of_ne_nil _ hpne]
      exact hhead
    · exact List.getLast?_concat p
    · rw [List.chain'_append]
      refine ⟨hchain, List.chain'_singleton y, ?_⟩
      intro a ha b hb
      rw [hlast] at ha
      cases ha
      simp at hb
      cases hb
      exact hy
    · simp [hlen]

/-- A concrete path folds back into a `ReachN` witness of its edge count. -/
theorem reachN_of_path {m : TagMap} {s : String} :
    ∀ {p : List String} {e : String}, IsNextPath m s e p →
      ReachN m s (p.length - 1) e := by
  intro p
  induction p using List.reverseRecOn with
  | nil =>
    intro e h
    obtain ⟨hhead, -, -⟩ := h
    simp at hhead
  | append_singleton q y ih =>
    intro e h
    obtain ⟨hhead, hlast, hchain⟩ := h
    have hye : y = e := by
      rw [List.getLast?_concat] at hlast
      cases hlast
      rfl
    subst hye
    by_cases hqnil : q = []
    · subst hqnil
      simp at hhead
      subst hhead
      simpa using ReachN.zero
    · have hxq : q.getLast? = some (q.getLast hqnil) :=
        List.getLast?_eq_getLast q hqnil
      have hhead' : q.head? = some s := by
        rw [List.head?_append_of_ne_nil _ hqnil] at hhead
        exact hhead
      rw [List.chain'_append] at hchain
      obtain ⟨hchq, -, hlink⟩ := hchain
      have hreach : ReachN m s (q.length - 1) (q.getLast hqnil) :=
        ih ⟨hhead', hxq, hchq⟩
      have hedge : stepRel m (q.getLast hqnil) y :=
        hlink _ hxq y rfl
      have hlen : (q ++ [y]).length - 1 = q.length := by simp
      rw [hlen]
      have hq1 : q.length - 1 + 1 = q.length :=
        Nat.succ_pred_eq_of_pos (List.length_pos.mpr hqnil)
      rw [← hq1]
      exact ReachN.succ hreach hedge

/-! ### Association-list lemmas for the parent map -/

theorem lookup_some_mem {β : Type} {l : List (String × β)} {k : String} {v : β}
    (h : List.lookup k l = some v) : (k, v) ∈ l := by
  induction l with
  | nil => simp at h
  | cons kv rest ih =>
    obtain ⟨a, b⟩ := kv
    rw [List.lookup] at h
    cases hbeq : (k == a) with
    | true =>
      rw [hbeq] at h
      cases h
      have : k = a := by simpa using hbeq
      subst this
      exact List.mem_cons_self _ _
    | false =>
      rw [hbeq] at h
      exact List.mem_cons_of_mem _ (ih h)

theorem lookup_none_of_keys {β : Type} {l : List (String × β)} {k : String}
    (h : ∀ kv ∈ l, kv.1 ≠ k) : List.lookup k l = none := by
  induction l with
  | nil => simp
  | cons kv rest ih =>
    obtain ⟨a, b⟩ := kv
    rw [List.lookup]
    have hne : a ≠ k := h (a, b) (List.mem_cons_self _ _)
    have hbeq : (k == a) = false := by
      simpa using fun he => hne he.symm
    rw [hbeq]
    exact ih (fun kv hkv => h kv (List.mem_cons_of_mem _ hkv))

theorem lookup_append_some {β : Type} {l₁ l₂ : List (String × β)} {k : String}
    {v : β} (h : List.lookup k l₁ = some v) :
    List.lookup k (l₁ ++ l₂) = some v := by
  induction l₁ with
  | nil => simp at h
  | cons kv rest ih =>
    obtain ⟨a, b⟩ := kv
    rw [List.lookup] at h
    rw [List.cons_append, List.lookup]
    cases hbeq : (k == a) with
    | true => rw [hbeq] at h; dsimp only at h ⊢; exact h
    | false => rw [hbeq] at h; dsimp only at h ⊢; exact ih h

theorem lookup_append_none {β : Type} {l₁ l₂ : List (String × β)} {k : String}
    (h : List.lookup k l₁ = none) :
    List.lookup k (l₁ ++ l₂) = List.lookup k l₂ := by
  induction l₁ with
  | nil => simp
  | cons kv rest ih =>
    obtain ⟨a, b⟩ := kv
    rw [List.lookup] at h
    rw [List.cons_append, List.lookup]
    cases hbeq : (k == a) with
    | true => rw [hbeq] at h; dsimp only at h; simp at h
    | false => rw [hbeq] at h; dsimp only at h ⊢; exact ih h

theorem lookup_map_const {F : List String} {y current : String} (hy : y ∈ F) :
    List.lookup y (F.map (fun z => (z, current))) = some current := by
  induction F with
  | nil => simp at hy
  | cons z rest ih =>
    rw [List.map_cons, List.lookup]
    cases hbeq : (y == z) with
    | true => rfl
    | false =>
      have hne : y ≠ z := by simpa using hbeq
      rcases List.mem_cons.mp hy with h | h
      · exact absurd h hne
      · dsimp only
        exact ih h

/-! ### The parent map traces a valid path back to the start -/

/-- `ParentPath m par V s x n`: following the parent pointers from `x`
reaches `s` in `n` steps, every hop is a nextSteps edge, and every node on
the way is visited. -/
inductive ParentPath (m : TagMap) (par : List (String × String))
    (V : List String) (s : String) : String → Nat → Prop where
  | base : s ∈ V → ParentPath m par V s s 0
  | step {w x : String} {n : Nat} :
      ParentPath m par V s w n → List.lookup x par = some w →
      x ∈ succs m w → x ∈ V → x ≠ s → ParentPath m par V s x (n + 1)

theorem parentPath_mono_V {m : TagMap} {par : List (String × String)}
    {V V' : List String} {s x : String} {n : Nat}
    (hV : ∀ z ∈ V, z ∈ V') (h : ParentPath m par V s x n) :
    ParentPath m par V' s x n := by
  induction h with
  | base hs => exact .base (hV _ hs)
  | step hpp hlk hsucc hmem hne ih => exact .step ih hlk hsucc (hV _ hmem) hne

theorem parentPath_append {m : TagMap} {par L : List (String × String)}
    {V : List String} {s x : String} {n : Nat}
    (h : ParentPath m par V s x n) :
    ParentPath m (par ++ L) V s x n := by
  induction h with
  | base hs => exact .base hs
  | step hpp hlk hsucc hmem hne ih =>
    exact .step ih (lookup_append_some hlk) hsucc hmem hne

/-- Tracing the parent map from a node with a `ParentPath` produces the
claimed path (with the start node prepended by the caller). -/
theorem trace_of_parentPath {m : TagMap} {par : List (String × String)}
    {V : List String} {s : String} (hsf : List.lookup s par = none) :
    ∀ {x : String} {n : Nat}, ParentPath m par V s x n →
      ∀ fuel, n < fuel →
        ∃ p, tracePath par fuel x = some p ∧ p.length = n ∧
          (s :: p).getLast? = some x ∧ (s :: p).Chain' (stepRel m) := by
  intro x n h
  induction h with
  | base hs =>
    intro fuel hfuel
    cases fuel with
    | zero => omega
    | succ f =>
      refine ⟨[], ?_, rfl, rfl, List.chain'_singleton s⟩
      rw [tracePath, hsf]
  | @step w x n hpp hlk hsucc hmem hne ih =>
    intro fuel hfuel
    cases fuel with
    | zero => omega
    | succ f =>
      obtain ⟨pre, htr, hlen, hlast, hchain⟩ := ih f (by omega)
      refine ⟨pre ++ [x], ?_, by simp [hlen], ?_, ?_⟩
      · rw [tracePath, hlk]
        dsimp only
        rw [htr]
      · rw [show s :: (pre ++ [x]) = (s :: pre) ++ [x] from rfl]
        exact List.getLast?_concat _
      · rw [show s :: (pre ++ [x]) = (s :: pre) ++ [x] from rfl,
          List.chain'_append]
        refine ⟨hchain, List.chain'_singleton x, ?_⟩
        intro a ha b hb
        rw [hlast] at ha
        cases ha
        simp at hb
        subst hb
        exact hsucc

/-! ### The BFS loop invariant -/

/-- The invariant of the BFS loop state `(Q, V, par)` for search root `s`:
the queue is a subset of the visited set without duplicates; parent keys are
visited non-root nodes; every visited node has an exact distance realized by
its parent chain (bounded by the parent map size); successors of dequeued
nodes are visited; queue distances are nondecreasing and span at most two
consecutive levels; nodes strictly closer than a queue member are visited,
and nodes strictly closer than the queue head are moreover dequeued. -/
structure BfsInv (m : TagMap) (s : String) (Q V : List String)
    (par : List (String × String)) : Prop where
  qSub : ∀ x ∈ Q, x ∈ V
  qNodup : Q.Nodup
  sMem : s ∈ V
  parKeys : ∀ kv ∈ par, kv.1 ∈ V ∧ kv.1 ≠ s
  discovered : ∀ x ∈ V, ∃ n, DistIs m s x n ∧ ParentPath m par V s x n ∧
    n ≤ par.length
  closed : ∀ x ∈ V, x ∉ Q → ∀ y ∈ succs m x, y ∈ V
  qSorted : Q.Pairwise (fun a b => ∀ da db, DistIs m s a da →
    DistIs m s b db → da ≤ db)
  qBand : ∀ h q, Q.head? = some h → q ∈ Q → ∀ dh dq, DistIs m s h dh →
    DistIs m s q dq → dq ≤ dh + 1
  frontA : ∀ q ∈ Q, ∀ z dz dq, DistIs m s z dz → DistIs m s q dq →
    dz < dq → z ∈ V
  frontB : ∀ h, Q.head? = some h → ∀ z dz dh, DistIs m s z dz →
    DistIs m s h dh → dz < dh → z ∈ V ∧ z ∉ Q

theorem bfsInv_sFree {m : TagMap} {s : String} {Q V : List String}
    {par : List (String × String)} (inv : BfsInv m s Q V par) :
    List.lookup s par = none := by
  cases hlk : List.lookup s par with
  | none => rfl
  | some w =>
    exact absurd rfl ((inv.parKeys _ (lookup_some_mem hlk)).2)

/-- Behind the dequeued head every strictly closer node is already visited
(classical BFS level argument): closer-than-head nodes come from `frontB`,
same-level-as-head nodes have a processed predecessor whose successors are
visited. -/
theorem mem_of_dist_le_head {m : TagMap} {s current : String}
    {rest V : List String} {par : List (String × String)} {k : Nat}
    (inv : BfsInv m s (current :: rest) V par)
    (hk : DistIs m s current k)
    {z : String} {dz : Nat} (hz : DistIs m s z dz) (hle : dz ≤ k) :
    z ∈ V := by
  rcases Nat.lt_or_ge dz k with hlt | hge
  · exact (inv.frontB current rfl z dz k hz hk hlt).1
  · have heq : dz = k := le_antisymm hle hge
    cases hdz : dz with
    | zero =>
      rw [hdz] at hz
      rw [distIs_zero_eq hz]
      exact inv.sMem
    | succ j =>
      rw [hdz] at hz heq
      obtain ⟨w, hw, hedge⟩ : ∃ w, ReachN m s j w ∧ z ∈ succs m w := by
        cases hz.1 with
        | succ hr he => exact ⟨_, hr, he⟩
      obtain ⟨dw, hdw⟩ := reaches_dist ⟨j, hw⟩
      have hdwj : dw ≤ j := hdw.2 j hw
      have hzle : j + 1 ≤ dw + 1 := hz.2 (dw + 1) (ReachN.succ hdw.1 hedge)
      have hdweq : dw = j := by omega
      have hdwk : dw < k := by omega
      have hwmem := inv.frontB current rfl w dw k hdw hk hdwk
      exact inv.closed w hwmem.1 hwmem.2 z hedge

/-- What the enqueue loop does, as data: it appends a duplicate-free list
`F` of previously unvisited elements of its input to the queue, the visited
set and (paired with `current`) the parent map, and afterwards every input
element is visited. -/
theorem enqueueAll_spec (current : String) :
    ∀ (ns Q V : List String) (par : List (String × String)),
      ∃ F, enqueueAll current ns (Q, V, par) =
          (Q ++ F, V ++ F, par ++ F.map (fun y => (y, current))) ∧
        F.Nodup ∧ (∀ y ∈ F, y ∈ ns ∧ y ∉ V) ∧
        (∀ y ∈ ns, y ∈ V ++ F) := by
  intro ns
  induction ns with
  | nil =>
    intro Q V par
    exact ⟨[], by simp [enqueueAll], List.nodup_nil, by simp, by simp⟩
  | cons y rest ih =>
    intro Q V par
    by_cases hy : y ∈ V
    · obtain ⟨F, heq, hnd, hmem, hcov⟩ := ih Q V par
      refine ⟨F, ?_,
        hnd, fun z hz => ⟨List.mem_cons_of_mem _ (hmem z hz).1, (hmem z hz).2⟩, ?_⟩
      · rw [enqueueAll, if_pos hy]
        exact heq
      · intro z hz
        rcases List.mem_cons.mp hz with hz | hz
        · subst hz
          exact List.mem_append_left _ hy
        · exact hcov z hz
    · obtain ⟨F', heq, hnd, hmem, hcov⟩ :=
        ih (Q ++ [y]) (V ++ [y]) (par ++ [(y, current)])
      refine ⟨y :: F', ?_, ?_, ?_, ?_⟩
      · rw [enqueueAll, if_neg hy, heq]
        simp
      · refine List.Nodup.cons ?_ hnd
        intro habs
        exact (hmem y habs).2 (List.mem_append_right _ (List.mem_singleton.mpr rfl))
      · intro z hz
        rcases List.mem_cons.mp hz with hz | hz
        · subst hz
          exact ⟨List.mem_cons_self _ _, hy⟩
        · obtain ⟨h1, h2⟩ := hmem z hz
          refine ⟨List.mem_cons_of_mem _ h1, fun habs => h2 ?_⟩
          exact List.mem_append_left _ habs
      · intro z hz
        rcases List.mem_cons.mp hz with hz | hz
        · subst hz
          simp
        · have := hcov z hz
          simpa using this

/-! ### Fuel accounting -/

/-- The loop measure: unvisited universe nodes plus queue length; each
iteration strictly decreases it. -/
def bfsMeasure (univ V Q : List String) : Nat :=
  (univ.filter (fun z => z ∉ V)).length + Q.length

theorem filter_not_mem_snoc_lt {l visited : List String} {t : String}
    (ht : t ∈ l) (hv : t ∉ visited) :
    (l.filter (fun k => k ∉ visited ++ [t])).length <
      (l.filter (fun k => k ∉ visited)).length := by
  have himp : ∀ a : String,
      (decide (a ∉ visited ++ [t]) = true) → (decide (a ∉ visited) = true) := by
    intro a ha
    simp only [decide_eq_true_eq, List.mem_append, List.mem_singleton] at ha ⊢
    exact fun h => ha (Or.inl h)
  have hsub := filter_sublist_of_imp (l := l) himp
  refine lt_of_le_of_ne hsub.length_le ?_
  intro heq
  have heql : l.filter (fun k => decide (k ∉ visited ++ [t])) =
      l.filter (fun k => decide (k ∉ visited)) :=
    hsub.eq_of_length heq
  have hmem : t ∈ l.filter (fun k => decide (k ∉ visited)) := by
    simp [List.mem_filter, ht, hv]
  rw [← heql] at hmem
  simp [List.mem_filter] at hmem

theorem measure_after_enqueue (univ : List String) :
    ∀ (F V : List String), F.Nodup → (∀ y ∈ F, y ∈ univ ∧ y ∉ V) →
      (univ.filter (fun z => z ∉ V ++ F)).length + F.length ≤
        (univ.filter (fun z => z ∉ V)).length := by
  intro F
  induction F with
  | nil =>
    intro V _ _
    simp
  | cons y F' ih =>
    intro V hnd hF
    have hyuniv : y ∈ univ := (hF y (List.mem_cons_self _ _)).1
    have hyV : y ∉ V := (hF y (List.mem_cons_self _ _)).2
    have hstep := filter_not_mem_snoc_lt hyuniv hyV (l := univ)
    have hF' : ∀ z ∈ F', z ∈ univ ∧ z ∉ V ++ [y] := by
      intro z hz
      refine ⟨(hF z (List.mem_cons_of_mem _ hz)).1, ?_⟩
      intro habs
      rcases List.mem_append.mp habs with h | h
      · exact (hF z (List.mem_cons_of_mem _ hz)).2 h
      · rw [List.mem_singleton] at h
        subst h
        exact (List.nodup_cons.mp hnd).1 hz
    have hrec := ih (V ++ [y]) (List.nodup_cons.mp hnd).2 hF'
    have hpred : (univ.filter (fun z => z ∉ V ++ y :: F')).length =
        (univ.filter (fun z => z ∉ (V ++ [y]) ++ F')).length := by
      congr 1
      apply List.filter_congr
      intro z _
      simp [List.mem_append, List.mem_cons, or_assoc]
    rw [List.length_cons, hpred]
    omega

theorem pairwise_of_mem_rel {α : Type} {R : α → α → Prop} :
    ∀ {l : List α}, (∀ a ∈ l, ∀ b ∈ l, R a b) → l.Pairwise R := by
  intro l
  induction l with
  | nil => intro _; exact List.Pairwise.nil
  | cons a t ih =>
    intro h
    refine List.Pairwise.cons ?_ (ih ?_)
    · intro b hb
      exact h a (List.mem_cons_self _ _) b (List.mem_cons_of_mem _ hb)
    · intro x hx y hy
      exact h x (List.mem_cons_of_mem _ hx) y (List.mem_cons_of_mem _ hy)

/-- A fresh successor of the dequeued head sits exactly one level deeper. -/
theorem dist_of_fresh {m : TagMap} {s current : String} {rest V : List String}
    {par : List (String × String)} {k : Nat}
    (inv : BfsInv m s (current :: rest) V par) (hk : DistIs m s current k)
    {y : String} (hysucc : y ∈ succs m current) (hyV : y ∉ V) :
    DistIs m s y (k + 1) := by
  refine ⟨ReachN.succ hk.1 hysucc, ?_⟩
  intro j hj
  by_contra hlt
  push_neg at hlt
  obtain ⟨dy, hdy⟩ := reaches_dist ⟨j, hj⟩
  have h1 : dy ≤ j := hdy.2 j hj
  have h2 : dy ≤ k := by omega
  exact hyV (mem_of_dist_le_head inv hk hdy h2)

/-- One dequeue-and-enqueue iteration preserves the invariant. -/
theorem bfsInv_step {m : TagMap} {s current : String} {rest V : List String}
    {par : List (String × String)} {k : Nat}
    (inv : BfsInv m s (current :: rest) V par) (hk : DistIs m s current k)
    {F : List String} (hFnd : F.Nodup)
    (hFmem : ∀ y ∈ F, y ∈ succs m current ∧ y ∉ V)
    (hcover : ∀ y ∈ succs m current, y ∈ V ++ F) :
    BfsInv m s (rest ++ F) (V ++ F) (par ++ F.map (fun y => (y, current))) := by
  have hcurV : current ∈ V := inv.qSub current (List.mem_cons_self _ _)
  have hkpar : k ≤ par.length := by
    obtain ⟨n, hn, -, hnle⟩ := inv.discovered current hcurV
    rw [distIs_unique hk hn]
    exact hnle
  have hdF : ∀ y ∈ F, DistIs m s y (k + 1) := fun y hy =>
    dist_of_fresh inv hk (hFmem y hy).1 (hFmem y hy).2
  refine ⟨?_, ?_, ?_, ?_, ?_, ?_, ?_, ?_, ?_, ?_⟩
  · -- qSub
    intro x hx
    rcases List.mem_append.mp hx with hx | hx
    · exact List.mem_append_left _ (inv.qSub x (List.mem_cons_of_mem _ hx))
    · exact List.mem_append_right _ hx
  · -- qNodup
    refine List.Nodup.append (List.Nodup.of_cons inv.qNodup) hFnd ?_
    intro a ha hb
    exact (hFmem a hb).2 (inv.qSub a (List.mem_cons_of_mem _ ha))
  · -- sMem
    exact List.mem_append_left _ inv.sMem
  · -- parKeys
    intro kv hkv
    rcases List.mem_append.mp hkv with hkv | hkv
    · exact ⟨List.mem_append_left _ (inv.parKeys kv hkv).1, (inv.parKeys kv hkv).2⟩
    · obtain ⟨y, hy, rfl⟩ := List.mem_map.mp hkv
      refine ⟨List.mem_append_right _ hy, ?_⟩
      intro habs
      have hys : y = s := habs
      rw [hys] at hy
      exact (hFmem s hy).2 inv.sMem
  · -- discovered
    intro x hx
    rcases List.mem_append.mp hx with hx | hx
    · obtain ⟨n, hdist, hpp, hle⟩ := inv.discovered x hx
      refine ⟨n, hdist,
        parentPath_mono_V (fun z hz => List.mem_append_left _ hz)
          (parentPath_append hpp), ?_⟩
      rw [List.length_append, List.length_map]
      omega
    · obtain ⟨nc, hnc, hppc, -⟩ := inv.discovered current hcurV
      have hnck : nc = k := distIs_unique hnc hk
      subst hnck
      have hppc' : ParentPath m (par ++ F.map (fun y => (y, current)))
          (V ++ F) s current nc :=
        parentPath_mono_V (fun z hz => List.mem_append_left _ hz)
          (parentPath_append hppc)
      have hlk : List.lookup x (par ++ F.map (fun y => (y, current))) =
          some current := by
        rw [lookup_append_none (lookup_none_of_keys ?_)]
        · exact lookup_map_const hx
        · intro kv hkv habs
          exact (hFmem x hx).2 (habs ▸ (inv.parKeys kv hkv).1)
      refine ⟨nc + 1, ?_, ?_, ?_⟩
      · rw [distIs_unique hk hnc] at hdF
        exact hdF x hx
      · refine ParentPath.step hppc' hlk (hFmem x hx).1
          (List.mem_append_right _ hx) ?_
        intro habs
        rw [habs] at hx
        exact (hFmem s hx).2 inv.sMem
      · rw [List.length_append, List.length_map]
        have : 1 ≤ F.length := List.length_pos.mpr (by
          intro habs
          rw [habs] at hx
          simp at hx)
        rw [distIs_unique hnc hk]
        omega
  · -- closed
    intro x hx hnq y hy
    rcases List.mem_append.mp hx with hx | hx
    · by_cases hxc : x = current
      · subst hxc
        exact hcover y hy
      · have hnotQ : x ∉ current :: rest := by
          intro habs
          rcases List.mem_cons.mp habs with h | h
          · exact hxc h
          · exact hnq (List.mem_append_left _ h)
        exact List.mem_append_left _ (inv.closed x hx hnotQ y hy)
    · exact absurd (List.mem_append_right rest hx) hnq
  · -- qSorted
    rw [List.pairwise_append]
    refine ⟨List.Pairwise.of_cons inv.qSorted, ?_, ?_⟩
    · refine pairwise_of_mem_rel ?_
      intro a ha b hb da db hda hdb
      rw [distIs_unique hda (hdF a ha), distIs_unique hdb (hdF b hb)]
    · intro a ha b hb da db hda hdb
      have h1 : da ≤ k + 1 :=
        inv.qBand current a rfl (List.mem_cons_of_mem _ ha) k da hk hda
      rw [distIs_unique hdb (hdF b hb)]
      exact h1
  · -- qBand
    intro h q hh hq dh dq hdh hdq
    cases rest with
    | nil =>
      cases F with
      | nil => simp at hh
      | cons y F' =>
        simp at hh
        subst hh
        have hdhk : dh = k + 1 :=
          distIs_unique hdh (hdF y (List.mem_cons_self _ _))
        rcases List.mem_append.mp hq with hq | hq
        · simp at hq
        · have : dq = k + 1 := distIs_unique hdq (hdF q hq)
          omega
    | cons h₂ rest2 =>
      have hh2 : h₂ = h := by
        rw [List.cons_append] at hh
        simpa using hh
      subst hh2
      have hkdh : k ≤ dh :=
        List.rel_of_pairwise_cons inv.qSorted (List.mem_cons_self _ _)
          k dh hk hdh
      rcases List.mem_append.mp hq with hq | hq
      · have : dq ≤ k + 1 :=
          inv.qBand current q rfl (List.mem_cons_of_mem _ hq) k dq hk hdq
        omega
      · have : dq = k + 1 := distIs_unique hdq (hdF q hq)
        omega
  · -- frontA
    intro q hq z dz dq hz hdq hlt
    rcases List.mem_append.mp hq with hq | hq
    · exact List.mem_append_left _
        (inv.frontA q (List.mem_cons_of_mem _ hq) z dz dq hz hdq hlt)
    · have hdqk : dq = k + 1 := distIs_unique hdq (hdF q hq)
      have : dz ≤ k := by omega
      exact List.mem_append_left _ (mem_of_dist_le_head inv hk hz this)
  · -- frontB
    intro h hh z dz dh hz hdh hlt
    cases rest with
    | nil =>
      cases F with
      | nil => simp at hh
      | cons y F' =>
        simp at hh
        subst hh
        have hdhk : dh = k + 1 :=
          distIs_unique hdh (hdF y (List.mem_cons_self _ _))
        have hzk : dz ≤ k := by omega
        have hzV : z ∈ V := mem_of_dist_le_head inv hk hz hzk
        refine ⟨List.mem_append_left _ hzV, ?_⟩
        intro habs
        rcases List.mem_append.mp habs with habs | habs
        · simp at habs
        · exact (hFmem z habs).2 hzV
    | cons h₂ rest2 =>
      have hh2 : h₂ = h := by
        rw [List.cons_append] at hh
        simpa using hh
      subst hh2
      have hdhband : dh ≤ k + 1 :=
        inv.qBand current h₂ rfl (List.mem_cons_of_mem _ (List.mem_cons_self _ _))
          k dh hk hdh
      have hzk : dz ≤ k := by omega
      have hzV : z ∈ V := mem_of_dist_le_head inv hk hz hzk
      refine ⟨List.mem_append_left _ hzV, ?_⟩
      intro habs
      rcases List.mem_append.mp habs with habs | habs
      · rcases List.mem_cons.mp habs with habs | habs
        · subst habs
          have := distIs_unique hz hdh
          omega
        · have : dh ≤ dz :=
            List.rel_of_pairwise_cons (List.Pairwise.of_cons inv.qSorted)
              habs dh dz hdh hz
          omega
      · exact (hFmem z habs).2 hzV

theorem mem_foldr_nextSteps {m : TagMap} {x : String} {t : ProcessedTag}
    (hmem : (x, t) ∈ m) {y : String} (hy : y ∈ t.nextSteps) :
    y ∈ m.foldr (fun kv acc => kv.2.nextSteps ++ acc) [] := by
  induction m with
  | nil => simp at hmem
  | cons kv rest ih =>
    rw [List.foldr_cons]
    rcases List.mem_cons.mp hmem with h | h
    · rw [← h]
      exact List.mem_append_left _ hy
    · exact List.mem_append_right _ (ih h)

theorem succs_mem_universe {m : TagMap} {s x y : String}
    (hy : y ∈ succs m x) : y ∈ bfsUniverse m s := by
  unfold succs at hy
  cases hget : mapGet m x with
  | none => rw [hget] at hy; simp at hy
  | some t =>
    rw [hget] at hy
    unfold mapGet at hget
    exact List.mem_cons_of_mem _ (mem_foldr_nextSteps (lookup_some_mem hget) hy)

/-- Soundness and completeness of the BFS loop: with the invariant, an
unprocessed end tag and enough fuel, the loop returns either a shortest path
from start to end (when the end is reachable) or the empty list (when it is
not). -/
theorem bfsGo_correct (m : TagMap) (s endId : String) :
    ∀ (fuel : Nat) (Q V : List String) (par : List (String × String)),
      BfsInv m s Q V par →
      (endId ∈ V → endId ∈ Q) →
      bfsMeasure (bfsUniverse m s) V Q < fuel →
      ∃ res, bfsGo m s endId fuel Q V par = some res ∧
        ((∃ n, DistIs m s endId n ∧ IsNextPath m s endId res ∧
            res.length = n + 1) ∨
          (res = [] ∧ ¬ Reaches m s endId)) := by
  intro fuel
  induction fuel with
  | zero => intro Q V par _ _ hmeas; omega
  | succ fuel ih =>
    intro Q V par inv hend hmeas
    cases Q with
    | nil =>
      refine ⟨[], by rw [bfsGo], Or.inr ⟨rfl, ?_⟩⟩
      rintro ⟨n, hn⟩
      have hcl : ∀ x ∈ V, ∀ y ∈ succs m x, y ∈ V := fun x hx =>
        inv.closed x hx (by simp)
      have hin : endId ∈ V := reach_mem_of_closed inv.sMem hcl hn
      simpa using hend hin
    | cons current rest =>
      have hcurV := inv.qSub current (List.mem_cons_self _ _)
      obtain ⟨k, hk, hppk, hkle⟩ := inv.discovered current hcurV
      by_cases hcur : current = endId
      · subst hcur
        obtain ⟨p, htr, hlen, hlast, hchain⟩ :=
          trace_of_parentPath (bfsInv_sFree inv) hppk (par.length + 1)
            (by omega)
        refine ⟨s :: p, ?_, Or.inl ⟨k, hk, ⟨rfl, hlast, hchain⟩, by simp [hlen]⟩⟩
        rw [bfsGo]
        dsimp only
        rw [if_pos rfl, htr]
      · obtain ⟨F, heq, hFnd, hFmem, hcov⟩ :=
          enqueueAll_spec current (succs m current) rest V par
        have inv' := bfsInv_step inv hk hFnd hFmem hcov
        have hend' : endId ∈ V ++ F → endId ∈ rest ++ F := by
          intro hin
          rcases List.mem_append.mp hin with h | h
          · rcases List.mem_cons.mp (hend h) with h2 | h2
            · exact absurd h2.symm hcur
            · exact List.mem_append_left _ h2
          · exact List.mem_append_right _ h
        have hmeas' :
            bfsMeasure (bfsUniverse m s) (V ++ F) (rest ++ F) < fuel := by
          have hMA := measure_after_enqueue (bfsUniverse m s) F V hFnd
            (fun y hy => ⟨succs_mem_universe (hFmem y hy).1, (hFmem y hy).2⟩)
          unfold bfsMeasure at hmeas ⊢
          simp only [List.length_append, List.length_cons] at hmeas ⊢
          omega
        obtain ⟨res, hres, hprop⟩ :=
          ih (rest ++ F) (V ++ F) (par ++ F.map (fun y => (y, current)))
            inv' hend' hmeas'
        refine ⟨res, ?_, hprop⟩
        rw [bfsGo]
        dsimp only
        rw [if_neg hcur, heq]
        exact hres

theorem bfsInv_init (m : TagMap) (s : String) : BfsInv m s [s] [s] [] := by
  have hds := distIs_self m s
  refine ⟨fun x hx => hx, List.nodup_singleton s, List.mem_singleton.mpr rfl,
    by simp, ?_, ?_, List.pairwise_singleton _ s, ?_, ?_, ?_⟩
  · intro x hx
    rw [List.mem_singleton.mp hx]
    exact ⟨0, hds, ParentPath.base (List.mem_singleton.mpr rfl), Nat.le_refl 0⟩
  · intro x hx hnx
    exact absurd hx hnx
  · intro h q hh hq dh dq hdh hdq
    have hh' : s = h := by simpa using hh
    have hq' : q = s := List.mem_singleton.mp hq
    rw [← hh'] at hdh
    rw [hq'] at hdq
    have h1 := distIs_unique hdh hds
    have h2 := distIs_unique hdq hds
    omega
  · intro q hq z dz dq hz hdq hlt
    rw [List.mem_singleton.mp hq] at hdq
    rw [distIs_unique hdq hds] at hlt
    omega
  · intro h hh z dz dh hz hdh hlt
    have hhs : s = h := by simpa using hh
    rw [← hhs] at hdh
    rw [distIs_unique hdh hds] at hlt
    omega

/-- C7: for defined start and end tags (ids are non-empty by schema),
`getLearningPath` without an end tag returns the start tag's `nextSteps`;
with one it returns a path over the nextSteps adjacency from start to end of
minimal edge count whenever the end is reachable — the path starts at the
start tag, ends at the end tag, every hop is a nextSteps edge, its length is
one more than the exact distance, and no nextSteps path is shorter — and the
empty list when the end is unreachable. -/
theorem c7_getLearningPath_bfs (m : TagMap) (s e : String)
    (st et : ProcessedTag) (hs : mapGet m s = some st)
    (he : mapGet m e = some et) (hne : e ≠ "") :
    getLearningPath m s none = st.nextSteps ∧
      (Reaches m s e →
        ∃ n, DistIs m s e n ∧
          IsNextPath m s e (getLearningPath m s (some e)) ∧
          (getLearningPath m s (some e)).length = n + 1 ∧
          ∀ q, IsNextPath m s e q →
            (getLearningPath m s (some e)).length ≤ q.length) ∧
      (¬ Reaches m s e → getLearningPath m s (some e) = []) := by
  have hmeas₀ :
      bfsMeasure (bfsUniverse m s) [s] [s] < (bfsUniverse m s).length + 1 := by
    unfold bfsMeasure bfsUniverse
    rw [List.filter_cons_of_neg (by simp)]
    have := List.length_filter_le (fun z => decide (z ∉ [s]))
      (m.foldr (fun kv acc => kv.2.nextSteps ++ acc) [])
    simp only [List.length_cons, List.length_nil]
    omega
  obtain ⟨res, hres, hprop⟩ :=
    bfsGo_correct m s e ((bfsUniverse m s).length + 1) [s] [s] []
      (bfsInv_init m s) (fun h => h) hmeas₀
  have hunfold : getLearningPath m s (some e) = res := by
    unfold getLearningPath
    rw [hs]
    dsimp only
    rw [if_neg hne, he]
    dsimp only
    rw [hres]
    rfl
  refine ⟨?_, ?_, ?_⟩
  · unfold getLearningPath
    rw [hs]
  · intro hreach
    rcases hprop with ⟨n, hdist, hpath, hlen⟩ | ⟨hnil, hnreach⟩
    · refine ⟨n, hdist, hunfold ▸ hpath, hunfold ▸ hlen, ?_⟩
      intro q hq
      have hq' := reachN_of_path hq
      have hmin : n ≤ q.length - 1 := hdist.2 _ hq'
      have hqpos : 1 ≤ q.length := by
        obtain ⟨hh, -, -⟩ := hq
        cases q with
        | nil => simp at hh
        | cons a t => simp
      rw [hunfold, hlen]
      omega
    · exact absurd hreach hnreach
  · intro hnreach
    rcases hprop with ⟨n, hdist, -⟩ | ⟨hnil, -⟩
    · exact absurd ⟨n, hdist.1⟩ hnreach
    · rw [hunfold, hnil]

/-- The three-tag chain `a → b → c` over the nextSteps adjacency, for the C7
witness. -/
def pathMap : TagMap :=
  [("a", { id := "a", label := "A", nextSteps := ["b"] }),
   ("b", { id := "b", label := "B", nextSteps := ["c"] }),
   ("c", { id := "c", label := "C" })]

/-- C7 witness: the theorem applied to the chain `a → b → c` with start `a`
and end `c`, all hypotheses discharged by evaluation. -/
theorem c7_getLearningPath_bfs_witness :
    mapGet pathMap "a" = some { id := "a", label := "A", nextSteps := ["b"] } ∧
      mapGet pathMap "c" = some { id := "c", label := "C" } ∧
      ("c" : String) ≠ "" ∧
      (getLearningPath pathMap "a" none = ["b"] ∧
        (Reaches pathMap "a" "c" →
          ∃ n, DistIs pathMap "a" "c" n ∧
            IsNextPath pathMap "a" "c" (getLearningPath pathMap "a" (some "c")) ∧
            (getLearningPath pathMap "a" (some "c")).length = n + 1 ∧
            ∀ q, IsNextPath pathMap "a" "c" q →
              (getLearningPath pathMap "a" (some "c")).length ≤ q.length) ∧
        (¬ Reaches pathMap "a" "c" →
          getLearningPath pathMap "a" (some "c") = [])) :=
  ⟨by decide, by decide, by decide,
    c7_getLearningPath_bfs pathMap "a" "c"
      { id := "a", label := "A", nextSteps := ["b"] }
      { id := "c", label := "C" } (by decide) (by decide) (by decide)⟩

end StarlightTags
